import Mathlib

/-!
Verification development for the youtube_link_extractor repository.

Strings are modelled as `List Char` (a Python `str` is a sequence of Unicode
code points), real-valued arithmetic as `ℚ`, and the external collaborators
(YouTube search, metadata fetch, the CSV files on disk) as explicit inputs.
Python operations that can raise are modelled with `Except`.
-/

namespace YTX

/-! ## Normalizer (src/data_helpers.py) -/

/-- Whitespace recognised by Python's `str.split()` / `str.strip()`,
restricted to the ASCII whitespace characters (the only whitespace that can
occur in the cleaned strings all claims are about). -/
def is_py_space (c : Char) : Bool :=
  decide (c = ' ' ∨ c = '\t' ∨ c = '\n' ∨ c = '\r' ∨ c = '\x0B' ∨ c = '\x0C')

/-- Character class of the final keep-filter in `cs`
(`[^A-Za-z0-9 가-힣぀-ヿ一-鿿Ѐ-ӿ฀-๿]`,
negated): ASCII alphanumerics, the space, Hangul syllables,
Hiragana/Katakana, CJK unified ideographs, Cyrillic and Thai. -/
def allowed_char (c : Char) : Bool :=
  decide ((65 ≤ c.toNat ∧ c.toNat ≤ 90) ∨ (97 ≤ c.toNat ∧ c.toNat ≤ 122) ∨
    (48 ≤ c.toNat ∧ c.toNat ≤ 57) ∨ c.toNat = 32 ∨
    (0xAC00 ≤ c.toNat ∧ c.toNat ≤ 0xD7A3) ∨ (0x3040 ≤ c.toNat ∧ c.toNat ≤ 0x30FF) ∨
    (0x4E00 ≤ c.toNat ∧ c.toNat ≤ 0x9FFF) ∨ (0x400 ≤ c.toNat ∧ c.toNat ≤ 0x4FF) ∨
    (0xE00 ≤ c.toNat ∧ c.toNat ≤ 0xE7F))

/-- Python `str.lower()`, modelled on the scripts that matter downstream
(ASCII, Latin-1 and Cyrillic letters; characters of other scripts are left
unchanged, which is indistinguishable after the keep-filter of `cs`). -/
def char_lower (c : Char) : Char :=
  if 65 ≤ c.toNat ∧ c.toNat ≤ 90 then Char.ofNat (c.toNat + 32)
  else if 192 ≤ c.toNat ∧ c.toNat ≤ 222 ∧ c.toNat ≠ 215 then Char.ofNat (c.toNat + 32)
  else if 0x410 ≤ c.toNat ∧ c.toNat ≤ 0x42F then Char.ofNat (c.toNat + 32)
  else if 0x400 ≤ c.toNat ∧ c.toNat ≤ 0x40F then Char.ofNat (c.toNat + 80)
  else c

/-- Combining-mark test (`unicodedata.category(c) == 'Mn'`), modelled on the
mark ranges of the scripts admitted by the keep-filter of `cs`
(combining diacritics, Cyrillic marks, Thai vowel/tone marks, Kana voicing
marks). -/
def is_mn (c : Char) : Bool :=
  decide ((0x300 ≤ c.toNat ∧ c.toNat ≤ 0x36F) ∨ (0x483 ≤ c.toNat ∧ c.toNat ≤ 0x487) ∨
    c.toNat = 0xE31 ∨ (0xE34 ≤ c.toNat ∧ c.toNat ≤ 0xE3A) ∨
    (0xE47 ≤ c.toNat ∧ c.toNat ≤ 0xE4E) ∨ (0x3099 ≤ c.toNat ∧ c.toNat ≤ 0x309A))

/-- Finite fragment of the Unicode canonical (NFD) decomposition table:
precomposed lowercase Latin-1, Cyrillic and Kana letters.  Characters not
listed here and outside the Hangul-syllable block decompose trivially. -/
def nfd_table : List (Char × List Char) :=
  [('à', ['a', '̀']), ('á', ['a', '́']), ('â', ['a', '̂']),
   ('ã', ['a', '̃']), ('ä', ['a', '̈']), ('å', ['a', '̊']),
   ('ç', ['c', '̧']), ('è', ['e', '̀']), ('é', ['e', '́']),
   ('ê', ['e', '̂']), ('ë', ['e', '̈']), ('ì', ['i', '̀']),
   ('í', ['i', '́']), ('î', ['i', '̂']), ('ï', ['i', '̈']),
   ('ñ', ['n', '̃']), ('ò', ['o', '̀']), ('ó', ['o', '́']),
   ('ô', ['o', '̂']), ('õ', ['o', '̃']), ('ö', ['o', '̈']),
   ('ù', ['u', '̀']), ('ú', ['u', '́']), ('û', ['u', '̂']),
   ('ü', ['u', '̈']), ('ý', ['y', '́']), ('ÿ', ['y', '̈']),
   ('ё', ['е', '̈']), ('й', ['и', '̆']),
   ('が', ['か', '゙']), ('ガ', ['カ', '゙'])]

/-- Per-character NFD decomposition (`unicodedata.normalize('NFD', ·)`):
Hangul syllables decompose algorithmically into conjoining Jamo, the
precomposed letters of `nfd_table` into base letter plus combining mark,
everything else trivially. -/
def nfd_char (c : Char) : List Char :=
  if 0xAC00 ≤ c.toNat ∧ c.toNat ≤ 0xD7A3 then
    if (c.toNat - 0xAC00) % 28 = 0 then
      [Char.ofNat (0x1100 + (c.toNat - 0xAC00) / 588),
       Char.ofNat (0x1161 + ((c.toNat - 0xAC00) % 588) / 28)]
    else
      [Char.ofNat (0x1100 + (c.toNat - 0xAC00) / 588),
       Char.ofNat (0x1161 + ((c.toNat - 0xAC00) % 588) / 28),
       Char.ofNat (0x11A7 + (c.toNat - 0xAC00) % 28)]
  else ((nfd_table.find? (fun e => e.1 == c)).map Prod.snd).getD [c]

/-- `remove_accents` of src/data_helpers.py: NFD-decompose and drop the
combining marks (category Mn). -/
def remove_accents (s : List Char) : List Char :=
  (s.flatMap nfd_char).filter (fun c => !is_mn c)

/-- Python `str.replace(a, b)` for single characters (also models
`re.sub` with a single-character literal pattern). -/
def replace_char (a b : Char) (s : List Char) : List Char :=
  s.map (fun c => if c = a then b else c)

/-- Scan for the first closing bracket (`)` or `]`) reachable by `.*?`,
which cannot cross a newline.  Returns the remainder after the closer. -/
def find_close : List Char → Option (List Char)
  | [] => none
  | c :: r =>
    if c = ')' ∨ c = ']' then some r
    else if c = '\n' then none
    else find_close r

/-- Fuel-driven scanner of `bracket_span_sub` (the fuel is only a
structural-termination device: it is at least the list length at every
call, so it never runs out). -/
def bracket_span_go : ℕ → List Char → List Char
  | 0, _ => []
  | _, [] => []
  | fuel + 1, c :: r =>
    if c = '(' ∨ c = '[' then
      match find_close r with
      | some rest => ' ' :: bracket_span_go fuel rest
      | none => c :: bracket_span_go fuel r
    else c :: bracket_span_go fuel r

/-- `re.sub("[\(\[].*?[\)\]]", " ", s)`: replace every non-greedy
bracketed span by one space, scanning left to right. -/
def bracket_span_sub (s : List Char) : List Char :=
  bracket_span_go s.length s

/-- Fuel-driven scanner of `remove_lit`. -/
def remove_lit_go (p : Char) (ps : List Char) : ℕ → List Char → List Char
  | 0, _ => []
  | _, [] => []
  | fuel + 1, c :: r =>
    if (p :: ps).isPrefixOf (c :: r) then remove_lit_go p ps fuel (r.drop ps.length)
    else c :: remove_lit_go p ps fuel r

/-- `re.sub(pat, '', s)` for the nonempty literal pattern `p :: ps`:
remove the non-overlapping occurrences, scanning left to right. -/
def remove_lit (p : Char) (ps s : List Char) : List Char :=
  remove_lit_go p ps s.length s

/-- Guard of a `lit.` regex match: one more character, which `.` requires
to be different from a newline. -/
def head_not_newline (l : List Char) : Bool :=
  match l.head? with
  | some d => decide (d ≠ '\n')
  | none => false

/-- Fuel-driven scanner of `remove_dot_pat`. -/
def remove_dot_go (p : Char) (ps : List Char) : ℕ → List Char → List Char
  | 0, _ => []
  | _, [] => []
  | fuel + 1, c :: r =>
    if (p :: ps).isPrefixOf (c :: r) ∧ head_not_newline (r.drop ps.length) then
      remove_dot_go p ps fuel (r.drop (ps.length + 1))
    else c :: remove_dot_go p ps fuel r

/-- `re.sub(lit + ".", '', s)` for the literal part `p :: ps` followed by
the regex `.` (any character except newline). -/
def remove_dot_pat (p : Char) (ps s : List Char) : List Char :=
  remove_dot_go p ps s.length s

/-- Fuel-driven scanner of `filter_allowed`. -/
def filter_allowed_go : ℕ → List Char → List Char
  | 0, _ => []
  | _, [] => []
  | fuel + 1, c :: r =>
    if allowed_char c then c :: filter_allowed_go fuel r
    else ' ' :: filter_allowed_go fuel (r.dropWhile (fun d => !allowed_char d))

/-- The final keep-filter
`re.sub('[^A-Za-z0-9 가-힣぀-ヿ一-鿿Ѐ-ӿ฀-๿]+', ' ', s)`:
each maximal run of disallowed characters becomes a single space. -/
def filter_allowed (s : List Char) : List Char :=
  filter_allowed_go s.length s

/-- `re.sub(' +', ' ', s)`: collapse runs of spaces to one space. -/
def collapse_spaces : List Char → List Char
  | [] => []
  | [c] => [c]
  | c1 :: c2 :: r =>
    if c1 = ' ' ∧ c2 = ' ' then collapse_spaces (c2 :: r)
    else c1 :: collapse_spaces (c2 :: r)

/-- Python `str.strip()`: drop whitespace from both ends. -/
def py_strip (s : List Char) : List Char :=
  ((s.reverse.dropWhile is_py_space).reverse).dropWhile is_py_space

/-- `ct` (clean title) of src/data_helpers.py: strip bracketed spans,
collapse double spaces, trim. -/
def ct (input_str : List Char) : List Char :=
  py_strip (collapse_spaces (bracket_span_sub input_str))

/-- `cs` (clean string) of src/data_helpers.py, the `strongClean` of the
spec.  The input is already a string (`str(input_str)` is the identity
here). -/
def cs (input_str : List Char) : List Char :=
  let s := input_str.map char_lower
  let s := bracket_span_sub s
  let s := replace_char '[' ' ' s
  let s := replace_char ']' ' ' s
  let s := replace_char '(' ' ' s
  let s := replace_char ')' ' ' s
  let s := replace_char '/' ' ' s
  let s := replace_char '&' ' ' s
  let s := remove_accents s
  let s := remove_lit 'f' "eaturering".toList s
  let s := remove_lit 'f' "eature".toList s
  let s := remove_dot_pat 'f' "eat".toList s
  let s := remove_dot_pat 'f' "t".toList s
  let s := filter_allowed s
  let s := collapse_spaces s
  py_strip s

/-! ## Character-level facts about the keep-filter and the trailing
normalisation passes of `cs` -/

theorem allowed_char_mem_filter_allowed_go :
    ∀ (fuel : ℕ) (s : List Char) (c : Char),
      c ∈ filter_allowed_go fuel s → allowed_char c = true := by
  intro fuel
  induction fuel with
  | zero => intro s c h; simp [filter_allowed_go] at h
  | succ fuel ih =>
    intro s c h
    cases s with
    | nil => simp [filter_allowed_go] at h
    | cons a r =>
      simp only [filter_allowed_go] at h
      split at h
      · rcases List.mem_cons.mp h with rfl | h'
        · assumption
        · exact ih _ _ h'
      · rcases List.mem_cons.mp h with rfl | h'
        · decide
        · exact ih _ _ h'

theorem mem_of_mem_collapse_spaces :
    ∀ {s : List Char} {c : Char}, c ∈ collapse_spaces s → c ∈ s := by
  intro s
  induction s using collapse_spaces.induct with
  | case1 => intro c h; simp [collapse_spaces] at h
  | case2 a => intro c h; simpa [collapse_spaces] using h
  | case3 c1 c2 r hsp ih =>
    intro c h
    rw [collapse_spaces, if_pos hsp] at h
    exact List.mem_cons_of_mem _ (ih h)
  | case4 c1 c2 r hsp ih =>
    intro c h
    rw [collapse_spaces, if_neg hsp] at h
    rcases List.mem_cons.mp h with rfl | h'
    · exact List.mem_cons_self _ _
    · exact List.mem_cons_of_mem _ (ih h')

theorem mem_of_mem_py_strip {s : List Char} {c : Char} (h : c ∈ py_strip s) : c ∈ s := by
  have h1 : c ∈ (s.reverse.dropWhile is_py_space).reverse :=
    (List.dropWhile_sublist _).mem h
  have h2 : c ∈ s.reverse.dropWhile is_py_space := List.mem_reverse.mp h1
  have h3 : c ∈ s.reverse := (List.dropWhile_sublist _).mem h2
  exact List.mem_reverse.mp h3

/-- Every character of a `cs`-image lies in the keep-filter's class. -/
theorem cs_chars_allowed {s : List Char} {c : Char} (h : c ∈ cs s) :
    allowed_char c = true := by
  unfold cs at h
  exact allowed_char_mem_filter_allowed_go _ _ _
    (mem_of_mem_collapse_spaces (mem_of_mem_py_strip h))

theorem toNat_char_ofNat {n : ℕ} (h : n < 0xD800) : (Char.ofNat n).toNat = n := by
  have hv : n.isValidChar := Or.inl h
  rw [Char.ofNat, dif_pos hv]
  rfl

theorem char_ne_of_toNat_ne {a b : Char} (h : a.toNat ≠ b.toNat) : a ≠ b :=
  fun hab => h (by rw [hab])

/-- Code points moved by `char_lower`. -/
def upper_code (n : ℕ) : Prop :=
  (65 ≤ n ∧ n ≤ 90) ∨ (192 ≤ n ∧ n ≤ 222 ∧ n ≠ 215) ∨
    (0x410 ≤ n ∧ n ≤ 0x42F) ∨ (0x400 ≤ n ∧ n ≤ 0x40F)

theorem char_lower_eq_self {c : Char} (h : ¬ upper_code c.toNat) : char_lower c = c := by
  unfold upper_code at h
  unfold char_lower
  rw [if_neg (by omega), if_neg (by omega), if_neg (by omega), if_neg (by omega)]

theorem not_upper_char_lower (c : Char) : ¬ upper_code (char_lower c).toNat := by
  unfold char_lower
  repeat' split
  all_goals unfold upper_code
  all_goals try rw [toNat_char_ofNat (by omega)]
  all_goals omega

theorem char_lower_idem (c : Char) : char_lower (char_lower c) = char_lower c :=
  char_lower_eq_self (not_upper_char_lower c)

/-- Characters fixed by the second-pass stages of `cs`:
NFD-trivial and not a combining mark. -/
def nfd_clean (c : Char) : Prop := nfd_char c = [c] ∧ is_mn c = false

theorem nfd_table_key_codes :
    ∀ e ∈ nfd_table, e.1.toNat < 0x1100 ∨ (0x3000 ≤ e.1.toNat ∧ e.1.toNat < 0xAC00) := by
  decide

theorem nfd_table_out_clean :
    ∀ e ∈ nfd_table, ∀ d ∈ e.2, nfd_char d = [d] ∧ char_lower d = d := by decide

theorem nfd_char_of_no_decomp {c : Char}
    (hh : ¬ (0xAC00 ≤ c.toNat ∧ c.toNat ≤ 0xD7A3))
    (ht : ∀ e ∈ nfd_table, e.1 ≠ c) : nfd_char c = [c] := by
  unfold nfd_char
  rw [if_neg hh, List.find?_eq_none.mpr, Option.map_none', Option.getD_none]
  intro e he
  simpa using ht e he

theorem nfd_char_of_code_gap {d : Char} (h1 : 0x1100 ≤ d.toNat) (h2 : d.toNat ≤ 0x11C2) :
    nfd_char d = [d] := by
  apply nfd_char_of_no_decomp (by omega)
  intro e he
  apply char_ne_of_toNat_ne
  rcases nfd_table_key_codes e he with h | h <;> omega

theorem char_lower_of_code_gap {d : Char} (h1 : 0x1100 ≤ d.toNat) (h2 : d.toNat ≤ 0x11C2) :
    char_lower d = d := by
  apply char_lower_eq_self
  unfold upper_code
  omega

/-- Code-point bounds of the conjoining Jamo produced by the Hangul
branch of `nfd_char`. -/
theorem mem_nfd_char_hangul {c d : Char}
    (hh : 0xAC00 ≤ c.toNat ∧ c.toNat ≤ 0xD7A3) (hd : d ∈ nfd_char c) :
    0x1100 ≤ d.toNat ∧ d.toNat ≤ 0x11C2 := by
  unfold nfd_char at hd
  rw [if_pos hh] at hd
  generalize hm : c.toNat - 0xAC00 = m at hd
  have hmb : m ≤ 0x2BA3 := by omega
  have hq : m % 588 ≤ 587 := Nat.le_of_lt_succ (Nat.mod_lt _ (by omega))
  have hr : m % 28 ≤ 27 := Nat.le_of_lt_succ (Nat.mod_lt _ (by omega))
  generalize hk1 : m / 588 = k1 at hd
  generalize hk2 : m % 588 = k2 at hd hq
  generalize hk3 : m % 28 = k3 at hd hr
  generalize hk4 : k2 / 28 = k4 at hd
  have hb1 : k1 ≤ 18 := by omega
  have hb4 : k4 ≤ 20 := by omega
  have hl : (Char.ofNat (0x1100 + k1)).toNat = 0x1100 + k1 := toNat_char_ofNat (by omega)
  have hv : (Char.ofNat (0x1161 + k4)).toNat = 0x1161 + k4 := toNat_char_ofNat (by omega)
  have ht : (Char.ofNat (0x11A7 + k3)).toNat = 0x11A7 + k3 := toNat_char_ofNat (by omega)
  split at hd <;> simp only [List.mem_cons, List.not_mem_nil, or_false] at hd
  · rcases hd with rfl | rfl
    · rw [hl]; omega
    · rw [hv]; omega
  · rcases hd with rfl | rfl | rfl
    · rw [hl]; omega
    · rw [hv]; omega
    · rw [ht]; omega

/-- Every character produced by an NFD decomposition decomposes trivially
(NFD is idempotent). -/
theorem nfd_char_out_stable {c d : Char} (hd : d ∈ nfd_char c) : nfd_char d = [d] := by
  by_cases hh : 0xAC00 ≤ c.toNat ∧ c.toNat ≤ 0xD7A3
  · have hj := mem_nfd_char_hangul hh hd
    exact nfd_char_of_code_gap hj.1 hj.2
  · unfold nfd_char at hd
    rw [if_neg hh] at hd
    rcases hfind : nfd_table.find? (fun e => e.1 == c) with _ | e
    · rw [hfind] at hd
      simp at hd
      subst hd
      unfold nfd_char
      rw [if_neg hh, hfind]
      rfl
    · rw [hfind] at hd
      simp at hd
      exact (nfd_table_out_clean e (List.mem_of_find?_eq_some hfind) d hd).1

/-- NFD decomposition never produces an uppercase letter from a
lowercase-fixed character. -/
theorem nfd_char_out_lower {c d : Char} (hc : char_lower c = c) (hd : d ∈ nfd_char c) :
    char_lower d = d := by
  by_cases hh : 0xAC00 ≤ c.toNat ∧ c.toNat ≤ 0xD7A3
  · have hj := mem_nfd_char_hangul hh hd
    exact char_lower_of_code_gap hj.1 hj.2
  · unfold nfd_char at hd
    rw [if_neg hh] at hd
    rcases hfind : nfd_table.find? (fun e => e.1 == c) with _ | e
    · rw [hfind] at hd
      simp at hd
      subst hd
      exact hc
    · rw [hfind] at hd
      simp at hd
      exact (nfd_table_out_clean e (List.mem_of_find?_eq_some hfind) d hd).2

theorem mem_remove_accents {s : List Char} {c : Char} (h : c ∈ remove_accents s) :
    (∃ d ∈ s, c ∈ nfd_char d) ∧ is_mn c = false := by
  unfold remove_accents at h
  have h1 := List.mem_filter.mp h
  refine ⟨?_, by simpa using h1.2⟩
  simpa using List.mem_flatMap.mp h1.1

theorem remove_accents_fixed {s : List Char} (h : ∀ c ∈ s, nfd_clean c) :
    remove_accents s = s := by
  unfold remove_accents
  induction s with
  | nil => rfl
  | cons a r ih =>
    have ha := h a (List.mem_cons_self _ _)
    rw [List.flatMap_cons, ha.1, List.cons_append, List.filter_cons_of_pos (by simp [ha.2])]
    rw [List.nil_append]
    exact congrArg _ (ih fun c hc => h c (List.mem_cons_of_mem _ hc))

/-! ## Membership lemmas: characters a pipeline stage can produce -/

theorem find_close_suffix : ∀ {l rest : List Char}, find_close l = some rest →
    rest <:+ l := by
  intro l
  induction l with
  | nil => intro rest h; simp [find_close] at h
  | cons c r ih =>
    intro rest h
    simp only [find_close] at h
    split at h
    · cases h; exact (List.suffix_cons c r)
    · split at h
      · cases h
      · exact (ih h).trans (List.suffix_cons c r)

theorem mem_bracket_span_go :
    ∀ (fuel : ℕ) {s : List Char} {c : Char}, c ∈ bracket_span_go fuel s →
      c ∈ s ∨ c = ' ' := by
  intro fuel
  induction fuel with
  | zero => intro s c h; simp [bracket_span_go] at h
  | succ fuel ih =>
    intro s c h
    cases s with
    | nil => simp [bracket_span_go] at h
    | cons a r =>
      simp only [bracket_span_go] at h
      split at h
      · rcases hfc : find_close r with _ | rest <;> rw [hfc] at h
        · rcases List.mem_cons.mp h with rfl | h'
          · exact Or.inl (List.mem_cons_self _ _)
          · rcases ih h' with h'' | h''
            · exact Or.inl (List.mem_cons_of_mem _ h'')
            · exact Or.inr h''
        · rcases List.mem_cons.mp h with rfl | h'
          · exact Or.inr rfl
          · rcases ih h' with h'' | h''
            · exact Or.inl (List.mem_cons_of_mem _ ((find_close_suffix hfc).sublist.mem h''))
            · exact Or.inr h''
      · rcases List.mem_cons.mp h with rfl | h'
        · exact Or.inl (List.mem_cons_self _ _)
        · rcases ih h' with h'' | h''
          · exact Or.inl (List.mem_cons_of_mem _ h'')
          · exact Or.inr h''

theorem mem_replace_char {a b : Char} {s : List Char} {c : Char}
    (h : c ∈ replace_char a b s) : c ∈ s ∨ c = b := by
  unfold replace_char at h
  rcases List.mem_map.mp h with ⟨d, hd, hdc⟩
  by_cases hda : d = a
  · right; rw [← hdc, hda, if_pos rfl]
  · left; rwa [← hdc, if_neg hda]

theorem mem_remove_lit_go {p : Char} {ps : List Char} :
    ∀ (fuel : ℕ) {s : List Char} {c : Char}, c ∈ remove_lit_go p ps fuel s → c ∈ s := by
  intro fuel
  induction fuel with
  | zero => intro s c h; simp [remove_lit_go] at h
  | succ fuel ih =>
    intro s c h
    cases s with
    | nil => simp [remove_lit_go] at h
    | cons a r =>
      simp only [remove_lit_go] at h
      split at h
      · exact List.mem_cons_of_mem _ (List.mem_of_mem_drop (ih h))
      · rcases List.mem_cons.mp h with rfl | h'
        · exact List.mem_cons_self _ _
        · exact List.mem_cons_of_mem _ (ih h')

theorem mem_remove_dot_go {p : Char} {ps : List Char} :
    ∀ (fuel : ℕ) {s : List Char} {c : Char}, c ∈ remove_dot_go p ps fuel s → c ∈ s := by
  intro fuel
  induction fuel with
  | zero => intro s c h; simp [remove_dot_go] at h
  | succ fuel ih =>
    intro s c h
    cases s with
    | nil => simp [remove_dot_go] at h
    | cons a r =>
      simp only [remove_dot_go] at h
      split at h
      · exact List.mem_cons_of_mem _ (List.mem_of_mem_drop (ih h))
      · rcases List.mem_cons.mp h with rfl | h'
        · exact List.mem_cons_self _ _
        · exact List.mem_cons_of_mem _ (ih h')

theorem mem_filter_allowed_go :
    ∀ (fuel : ℕ) {s : List Char} {c : Char}, c ∈ filter_allowed_go fuel s →
      c ∈ s ∨ c = ' ' := by
  intro fuel
  induction fuel with
  | zero => intro s c h; simp [filter_allowed_go] at h
  | succ fuel ih =>
    intro s c h
    cases s with
    | nil => simp [filter_allowed_go] at h
    | cons a r =>
      simp only [filter_allowed_go] at h
      split at h
      · rcases List.mem_cons.mp h with rfl | h'
        · exact Or.inl (List.mem_cons_self _ _)
        · rcases ih h' with h'' | h''
          · exact Or.inl (List.mem_cons_of_mem _ h'')
          · exact Or.inr h''
      · rcases List.mem_cons.mp h with rfl | h'
        · exact Or.inr rfl
        · rcases ih h' with h'' | h''
          · exact Or.inl (List.mem_cons_of_mem _ ((List.dropWhile_sublist _).mem h''))
          · exact Or.inr h''

/-! ## Fixed-point lemmas: each stage of `cs` leaves a string that carries
none of the material it rewrites unchanged -/

theorem map_char_lower_fixed {s : List Char} (h : ∀ c ∈ s, char_lower c = c) :
    s.map char_lower = s := by
  induction s with
  | nil => rfl
  | cons a r ih =>
    rw [List.map_cons, h a (List.mem_cons_self _ _),
      ih fun c hc => h c (List.mem_cons_of_mem _ hc)]

theorem bracket_span_go_fixed :
    ∀ (fuel : ℕ) {s : List Char}, s.length ≤ fuel →
      (∀ c ∈ s, c ≠ '(' ∧ c ≠ '[') → bracket_span_go fuel s = s := by
  intro fuel
  induction fuel with
  | zero =>
    intro s hl _
    rw [Nat.le_zero] at hl
    rw [List.length_eq_zero] at hl
    subst hl
    rfl
  | succ fuel ih =>
    intro s hl h
    cases s with
    | nil => rfl
    | cons a r =>
      have ha := h a (List.mem_cons_self _ _)
      have ha' : ¬ (a = '(' ∨ a = '[') := by
        rintro (h1 | h1)
        · exact ha.1 h1
        · exact ha.2 h1
      simp only [bracket_span_go, if_neg ha']
      simp only [List.length_cons, Nat.succ_le_succ_iff] at hl
      rw [ih hl fun c hc => h c (List.mem_cons_of_mem _ hc)]

theorem replace_char_fixed {a b : Char} {s : List Char} (h : ∀ c ∈ s, c ≠ a) :
    replace_char a b s = s := by
  unfold replace_char
  induction s with
  | nil => rfl
  | cons x r ih =>
    rw [List.map_cons, if_neg (h x (List.mem_cons_self _ _)),
      ih fun c hc => h c (List.mem_cons_of_mem _ hc)]

theorem remove_lit_go_fixed {p : Char} {ps : List Char} :
    ∀ (fuel : ℕ) {s : List Char}, s.length ≤ fuel →
      ¬ (p :: ps) <:+: s → remove_lit_go p ps fuel s = s := by
  intro fuel
  induction fuel with
  | zero =>
    intro s hl _
    rw [Nat.le_zero] at hl
    rw [List.length_eq_zero] at hl
    subst hl
    rfl
  | succ fuel ih =>
    intro s hl h
    cases s with
    | nil => rfl
    | cons a r =>
      rw [List.infix_cons_iff] at h
      push_neg at h
      simp only [remove_lit_go,
        if_neg (fun hp => h.1 (List.isPrefixOf_iff_prefix.mp hp))]
      simp only [List.length_cons, Nat.succ_le_succ_iff] at hl
      rw [ih hl h.2]

theorem remove_dot_go_fixed {p : Char} {ps : List Char} :
    ∀ (fuel : ℕ) {s : List Char}, s.length ≤ fuel →
      (∀ d : Char, ¬ ((p :: ps) ++ [d]) <:+: s) → remove_dot_go p ps fuel s = s := by
  intro fuel
  induction fuel with
  | zero =>
    intro s hl _
    rw [Nat.le_zero] at hl
    rw [List.length_eq_zero] at hl
    subst hl
    rfl
  | succ fuel ih =>
    intro s hl h
    cases s with
    | nil => rfl
    | cons a r =>
      have hguard : ¬ ((p :: ps).isPrefixOf (a :: r) ∧
          head_not_newline (r.drop ps.length)) := by
        rintro ⟨hp, hn⟩
        have hp' : (p :: ps) <+: (a :: r) := List.isPrefixOf_iff_prefix.mp hp
        rcases hp' with ⟨t, ht⟩
        rcases hdrop : r.drop ps.length with _ | ⟨d, tl⟩
        · rw [hdrop] at hn
          simp [head_not_newline] at hn
        · have ht2 : t = r.drop ps.length := by
            have h1 : ((p :: ps) ++ t).drop (p :: ps).length = t := List.drop_left _ _
            rw [ht] at h1
            simpa using h1.symm
          refine h d ⟨[], tl, ?_⟩
          rw [← ht, ht2, hdrop]
          simp
      rw [remove_dot_go, if_neg hguard]
      simp only [List.length_cons, Nat.succ_le_succ_iff] at hl
      rw [ih hl]
      intro d hd
      exact h d (List.infix_cons hd)

theorem filter_allowed_go_fixed :
    ∀ (fuel : ℕ) {s : List Char}, s.length ≤ fuel →
      (∀ c ∈ s, allowed_char c = true) → filter_allowed_go fuel s = s := by
  intro fuel
  induction fuel with
  | zero =>
    intro s hl _
    rw [Nat.le_zero] at hl
    rw [List.length_eq_zero] at hl
    subst hl
    rfl
  | succ fuel ih =>
    intro s hl h
    cases s with
    | nil => rfl
    | cons a r =>
      simp only [filter_allowed_go, if_pos (h a (List.mem_cons_self _ _))]
      simp only [List.length_cons, Nat.succ_le_succ_iff] at hl
      rw [ih hl fun c hc => h c (List.mem_cons_of_mem _ hc)]

/-! ## Space-collapsing and stripping: shape of `cs` output -/

/-- No two adjacent spaces (the state `re.sub(' +', ' ')` establishes). -/
def no_two_spaces (s : List Char) : Prop :=
  s.Chain' (fun a b => ¬ (a = ' ' ∧ b = ' '))

theorem collapse_spaces_head? :
    ∀ {s : List Char}, s ≠ [] → (collapse_spaces s).head? = s.head? := by
  intro s
  induction s using collapse_spaces.induct with
  | case1 => intro h; exact absurd rfl h
  | case2 c => intro _; rfl
  | case3 c1 c2 r hsp ih =>
    intro _
    simp only [collapse_spaces, if_pos hsp]
    rw [ih (by simp)]
    simp [hsp.1, hsp.2]
  | case4 c1 c2 r hsp ih =>
    intro _
    simp [collapse_spaces, if_neg hsp]

theorem nts_collapse_spaces (s : List Char) : no_two_spaces (collapse_spaces s) := by
  induction s using collapse_spaces.induct with
  | case1 => simp [collapse_spaces, no_two_spaces]
  | case2 c => simp [collapse_spaces, no_two_spaces]
  | case3 c1 c2 r hsp ih => simpa only [collapse_spaces, if_pos hsp] using ih
  | case4 c1 c2 r hsp ih =>
    simp only [collapse_spaces, if_neg hsp]
    refine List.chain'_cons'.mpr ⟨?_, ih⟩
    intro y hy
    rw [collapse_spaces_head? (by simp)] at hy
    simp only [List.head?_cons, Option.mem_def, Option.some.injEq] at hy
    rintro ⟨ha, hb⟩
    exact hsp ⟨ha, hy ▸ hb⟩

theorem collapse_spaces_fixed : ∀ {s : List Char}, no_two_spaces s →
    collapse_spaces s = s := by
  intro s
  induction s using collapse_spaces.induct with
  | case1 => intro _; rfl
  | case2 c => intro _; rfl
  | case3 c1 c2 r hsp ih =>
    intro h
    exact absurd hsp (List.chain'_cons.mp h).1
  | case4 c1 c2 r hsp ih =>
    intro h
    simp only [collapse_spaces, if_neg hsp]
    rw [ih (List.chain'_cons.mp h).2]

theorem nts_dropWhile {p : Char → Bool} {l : List Char} (h : no_two_spaces l) :
    no_two_spaces (l.dropWhile p) := by
  unfold no_two_spaces at *
  rw [← List.takeWhile_append_dropWhile (p := p) (l := l)] at h
  exact (List.chain'_append.mp h).2.1

theorem nts_reverse {l : List Char} (h : no_two_spaces l) :
    no_two_spaces l.reverse := by
  unfold no_two_spaces at *
  rw [List.chain'_reverse]
  exact h.imp fun a b hab hc => hab ⟨hc.2, hc.1⟩

theorem nts_py_strip {s : List Char} (h : no_two_spaces s) :
    no_two_spaces (py_strip s) :=
  nts_dropWhile (nts_reverse (nts_dropWhile (nts_reverse h)))

theorem dropWhile_dropWhile_self {p : Char → Bool} :
    ∀ l : List Char, (l.dropWhile p).dropWhile p = l.dropWhile p := by
  intro l
  induction l with
  | nil => rfl
  | cons c r ih =>
    by_cases hc : p c
    · rw [List.dropWhile_cons_of_pos hc]; exact ih
    · rw [List.dropWhile_cons_of_neg hc, List.dropWhile_cons_of_neg hc]

theorem dropWhile_eq_self_of_prefix {p : Char → Bool} {u l : List Char}
    (hu : u <+: l) (hl : l.dropWhile p = l) : u.dropWhile p = u := by
  cases u with
  | nil => rfl
  | cons c u' =>
    rcases hu with ⟨t, ht⟩
    have hpc : ¬ p c = true := by
      intro hpc
      rw [← ht, List.cons_append, List.dropWhile_cons_of_pos hpc] at hl
      have hlen := congrArg List.length hl
      rw [List.length_cons] at hlen
      have hle := List.Sublist.length_le (List.dropWhile_sublist (p := p) (l := u' ++ t))
      omega
    rw [List.dropWhile_cons_of_neg hpc]

theorem py_strip_idem (s : List Char) : py_strip (py_strip s) = py_strip s := by
  unfold py_strip
  have hrt : (s.reverse.dropWhile is_py_space).reverse.reverse.dropWhile is_py_space
      = (s.reverse.dropWhile is_py_space).reverse.reverse := by
    rw [List.reverse_reverse]
    exact dropWhile_dropWhile_self _
  generalize hgen : (s.reverse.dropWhile is_py_space).reverse = t at hrt ⊢
  have hyp : (t.dropWhile is_py_space).reverse <+: t.reverse :=
    List.reverse_prefix.mpr (List.dropWhile_suffix _)
  have h1 : (t.dropWhile is_py_space).reverse.dropWhile is_py_space
      = (t.dropWhile is_py_space).reverse :=
    dropWhile_eq_self_of_prefix hyp hrt
  rw [h1, List.reverse_reverse, dropWhile_dropWhile_self]

/-! ## Wrappers for the fuelled scanners -/

theorem mem_of_mem_bracket_span_sub {s : List Char} {c : Char}
    (h : c ∈ bracket_span_sub s) : c ∈ s ∨ c = ' ' := mem_bracket_span_go _ h

theorem mem_of_mem_remove_lit {p : Char} {ps s : List Char} {c : Char}
    (h : c ∈ remove_lit p ps s) : c ∈ s := mem_remove_lit_go _ h

theorem mem_of_mem_remove_dot_pat {p : Char} {ps s : List Char} {c : Char}
    (h : c ∈ remove_dot_pat p ps s) : c ∈ s := mem_remove_dot_go _ h

theorem mem_of_mem_filter_allowed {s : List Char} {c : Char}
    (h : c ∈ filter_allowed s) : c ∈ s ∨ c = ' ' := mem_filter_allowed_go _ h

theorem bracket_span_sub_fixed {s : List Char} (h : ∀ c ∈ s, c ≠ '(' ∧ c ≠ '[') :
    bracket_span_sub s = s := bracket_span_go_fixed _ le_rfl h

theorem remove_lit_fixed {p : Char} {ps s : List Char} (h : ¬ (p :: ps) <:+: s) :
    remove_lit p ps s = s := remove_lit_go_fixed _ le_rfl h

theorem remove_dot_pat_fixed {p : Char} {ps s : List Char}
    (h : ∀ d : Char, ¬ ((p :: ps) ++ [d]) <:+: s) :
    remove_dot_pat p ps s = s := remove_dot_go_fixed _ le_rfl h

theorem filter_allowed_fixed {s : List Char} (h : ∀ c ∈ s, allowed_char c = true) :
    filter_allowed s = s := filter_allowed_go_fixed _ le_rfl h

/-- The pipeline of `cs` written as a plain composition. -/
theorem cs_eq (s : List Char) :
    cs s = py_strip (collapse_spaces (filter_allowed
      (remove_dot_pat 'f' "t".toList
        (remove_dot_pat 'f' "eat".toList
          (remove_lit 'f' "eature".toList
            (remove_lit 'f' "eaturering".toList
              (remove_accents
                (replace_char '&' ' '
                  (replace_char '/' ' '
                    (replace_char ')' ' '
                      (replace_char '(' ' '
                        (replace_char ']' ' '
                          (replace_char '[' ' '
                            (bracket_span_sub
                              (s.map char_lower))))))))))))))) := rfl

/-! ## Invariants of the `cs` image -/

section CsImage

attribute [local irreducible] bracket_span_sub remove_lit remove_dot_pat filter_allowed
  replace_char remove_accents collapse_spaces py_strip cs

theorem cs_image_lower_fixed {s : List Char} : ∀ c ∈ cs s, char_lower c = c := by
  intro c hc
  rw [cs_eq] at hc
  have h15 := mem_of_mem_collapse_spaces (mem_of_mem_py_strip hc)
  rcases mem_of_mem_filter_allowed h15 with h13 | rfl
  · have h9 := mem_of_mem_remove_lit (mem_of_mem_remove_lit
      (mem_of_mem_remove_dot_pat (mem_of_mem_remove_dot_pat h13)))
    rcases (mem_remove_accents h9).1 with ⟨d, hd8, hcd⟩
    refine nfd_char_out_lower ?_ hcd
    rcases mem_replace_char hd8 with h7 | rfl
    · rcases mem_replace_char h7 with h6 | rfl
      · rcases mem_replace_char h6 with h5 | rfl
        · rcases mem_replace_char h5 with h4 | rfl
          · rcases mem_replace_char h4 with h3 | rfl
            · rcases mem_replace_char h3 with h2 | rfl
              · rcases mem_of_mem_bracket_span_sub h2 with h1 | rfl
                · rcases List.mem_map.mp h1 with ⟨e, _, rfl⟩
                  exact char_lower_idem e
                · decide
              · decide
            · decide
          · decide
        · decide
      · decide
    · decide
  · decide

theorem cs_image_nfd_clean {s : List Char} : ∀ c ∈ cs s, nfd_clean c := by
  intro c hc
  rw [cs_eq] at hc
  have h15 := mem_of_mem_collapse_spaces (mem_of_mem_py_strip hc)
  rcases mem_of_mem_filter_allowed h15 with h13 | rfl
  · have h9 := mem_of_mem_remove_lit (mem_of_mem_remove_lit
      (mem_of_mem_remove_dot_pat (mem_of_mem_remove_dot_pat h13)))
    have hra := mem_remove_accents h9
    rcases hra.1 with ⟨d, _, hcd⟩
    exact ⟨nfd_char_out_stable hcd, hra.2⟩
  · exact ⟨by decide, by decide⟩

theorem cs_image_nts {s : List Char} : no_two_spaces (cs s) := by
  rw [cs_eq]
  exact nts_py_strip (nts_collapse_spaces _)

theorem py_strip_cs (s : List Char) : py_strip (cs s) = cs s := by
  rw [cs_eq s, py_strip_idem]

/-! ## Occurrence bookkeeping for the removal patterns -/

theorem isInfix_dropLast_of_snoc {l y : List Char} {d : Char}
    (h : (l ++ [d]) <:+: y) : l <:+: y.dropLast := by
  rcases h with ⟨u, v, huv⟩
  have h2 : (u ++ l) ++ (d :: v) = y := by rw [← huv]; simp
  rw [← h2, List.dropLast_append_cons]
  exact ⟨u, (d :: v).dropLast, by simp⟩

theorem no_snoc_occurrence_of_dropLast {l y : List Char}
    (h : ¬ l <:+: y.dropLast) : ∀ d : Char, ¬ (l ++ [d]) <:+: y :=
  fun _ hd => h (isInfix_dropLast_of_snoc hd)

/-- Core of the amended idempotence: when the cleaned string carries no
residual match of the removal patterns, every stage of a second `cs` pass
fixes it. -/
theorem cs_cs_eq_cs_of_no_residue (s : List Char)
    (h1 : ¬ "feat".toList <:+: (cs s).dropLast)
    (h2 : ¬ "ft".toList <:+: (cs s).dropLast) :
    cs (cs s) = cs s := by
  have h1' := no_snoc_occurrence_of_dropLast h1
  have h2' := no_snoc_occurrence_of_dropLast h2
  have hall : ∀ c ∈ cs s, allowed_char c = true := fun c hc => cs_chars_allowed hc
  have hnc : ∀ a : Char, allowed_char a = false → ∀ c ∈ cs s, c ≠ a := by
    intro a ha c hc heq
    rw [heq] at hc
    rw [hall a hc] at ha
    cases ha
  have hfr : ¬ ('f' :: "eaturering".toList) <:+: cs s := by
    intro hocc
    exact h1' 'u' (List.IsInfix.trans (by decide) hocc)
  have hfe : ¬ ('f' :: "eature".toList) <:+: cs s := by
    intro hocc
    exact h1' 'u' (List.IsInfix.trans (by decide) hocc)
  conv_lhs => rw [cs_eq]
  rw [map_char_lower_fixed cs_image_lower_fixed]
  rw [bracket_span_sub_fixed (fun c hc =>
    ⟨hnc '(' (by decide) c hc, hnc '[' (by decide) c hc⟩)]
  rw [replace_char_fixed (hnc '[' (by decide))]
  rw [replace_char_fixed (hnc ']' (by decide))]
  rw [replace_char_fixed (hnc '(' (by decide))]
  rw [replace_char_fixed (hnc ')' (by decide))]
  rw [replace_char_fixed (hnc '/' (by decide))]
  rw [replace_char_fixed (hnc '&' (by decide))]
  rw [remove_accents_fixed cs_image_nfd_clean]
  rw [remove_lit_fixed hfr]
  rw [remove_lit_fixed hfe]
  have h1'' : ∀ d : Char, ¬ (('f' :: "eat".toList) ++ [d]) <:+: cs s := h1'
  have h2'' : ∀ d : Char, ¬ (('f' :: "t".toList) ++ [d]) <:+: cs s := h2'
  rw [remove_dot_pat_fixed h1'']
  rw [remove_dot_pat_fixed h2'']
  rw [filter_allowed_fixed hall]
  rw [collapse_spaces_fixed cs_image_nts]
  exact py_strip_cs s

end CsImage

/-! ## Claims C3 and C9 (Normalizer) -/

/-- C9: for every string `s`, `strongClean` (`cs s`) contains only ASCII
letters and digits, spaces, and characters from the five allowed Unicode
blocks (Hangul syllables, Hiragana/Katakana, CJK unified ideographs,
Cyrillic, Thai). -/
theorem C9_strongClean_charset (s : List Char) (c : Char) (hc : c ∈ cs s) :
    allowed_char c = true :=
  cs_chars_allowed hc

/-- C9 witness at the concrete input "Hi!". -/
theorem C9_strongClean_charset_witness :
    'h' ∈ cs "Hi!".toList ∧ allowed_char 'h' = true :=
  ⟨by decide, C9_strongClean_charset "Hi!".toList 'h' (by decide)⟩

/-- C3 counterexample: `strongClean` is not idempotent.  On "fftxeature"
the `re.sub('ft.', '')` pass creates a fresh occurrence of "feature"
(`cs` returns "feature"), which a second application removes entirely. -/
theorem C3_strongClean_not_idem :
    cs (cs "fftxeature".toList) ≠ cs "fftxeature".toList := by decide

/-- C3 (amended): `strongClean` is idempotent on every string whose cleaned
form contains no residual match of the removal patterns, i.e. no occurrence
of "feat" or of "ft" that is followed by at least one more character. -/
theorem C3_strongClean_idem_amended (s : List Char)
    (h1 : ¬ "feat".toList <:+: (cs s).dropLast)
    (h2 : ¬ "ft".toList <:+: (cs s).dropLast) :
    cs (cs s) = cs s :=
  cs_cs_eq_cs_of_no_residue s h1 h2

/-- C3 amended witness at the concrete input "Hello (World)!". -/
theorem C3_strongClean_idem_amended_witness :
    cs (cs "Hello (World)!".toList) = cs "Hello (World)!".toList :=
  C3_strongClean_idem_amended "Hello (World)!".toList (by decide) (by decide)

/-! ## Asymmetric Distance Scorer (src/data_helpers.py,
`get_asymmetric_token_distance`) -/

/-- Python `str.split()` with no argument: split on whitespace runs,
dropping empty pieces. -/
def split_ws_go (acc : List Char) : List Char → List (List Char)
  | [] => if acc.isEmpty then [] else [acc.reverse]
  | c :: r =>
    if is_py_space c then
      if acc.isEmpty then split_ws_go [] r else acc.reverse :: split_ws_go [] r
    else split_ws_go (c :: acc) r

def split_ws (s : List Char) : List (List Char) := split_ws_go [] s

/-- `re.search(token, str_long)` for the tokens at hand: the tokens come
from `cs`-cleaned strings, which contain no regex metacharacter, so the
search is plain substring containment. -/
def re_search : List Char → List Char → Bool
  | pat, [] => pat.isEmpty
  | pat, c :: r => pat.isPrefixOf (c :: r) || re_search pat r

theorem re_search_iff {pat : List Char} : ∀ {s : List Char},
    re_search pat s = true ↔ pat <:+: s := by
  intro s
  induction s with
  | nil =>
    simp only [re_search, List.isEmpty_iff, List.infix_nil]
  | cons c r ih =>
    simp only [re_search, Bool.or_eq_true, List.isPrefixOf_iff_prefix, ih,
      List.infix_cons_iff]

/-- Token list of the short string after the one-letter-token rejoining of
`get_asymmetric_token_distance` (lines 156-164 of src/data_helpers.py). -/
def token_rejoin (str_short : List Char) : List (List Char) :=
  let token_short := split_ws str_short
  let to_be_joined := token_short.filter (fun x => x.length == 1)
  let token_short := token_short.filter (fun x => !to_be_joined.contains x)
  if 0 < to_be_joined.length then
    token_short ++ [List.intercalate [' '] to_be_joined]
  else token_short

/-- `get_asymmetric_token_distance` of src/data_helpers.py.  Returns the
accumulated distance and the space-joined matched tokens. -/
def get_asymmetric_token_distance (str_short str_long : List Char) :
    ℚ × List Char :=
  let token_short := token_rejoin str_short
  let res := token_short.foldl
    (fun (acc : ℚ × List (List Char)) token =>
      if !re_search token str_long then
        (acc.1 + 1 / (token_short.length : ℚ), acc.2)
      else (acc.1, acc.2 ++ [token]))
    ((0 : ℚ), ([] : List (List Char)))
  (res.1, List.intercalate [' '] res.2)

theorem dist_foldl_eq (str_long : List Char) (n : ℕ) :
    ∀ (l : List (List Char)) (d0 : ℚ) (m0 : List (List Char)),
      (l.foldl
        (fun (acc : ℚ × List (List Char)) token =>
          if !re_search token str_long then (acc.1 + 1 / (n : ℚ), acc.2)
          else (acc.1, acc.2 ++ [token]))
        (d0, m0)).1
      = d0 + (l.countP (fun t => !re_search t str_long)) * (1 / (n : ℚ)) := by
  intro l
  induction l with
  | nil => intro d0 m0; simp
  | cons t r ih =>
    intro d0 m0
    by_cases hp : re_search t str_long = true
    · simp only [List.foldl_cons, hp, Bool.not_true, Bool.false_eq_true, if_false,
        List.countP_cons, hp]
      rw [ih]
      simp
    · rw [Bool.not_eq_true] at hp
      simp only [List.foldl_cons, hp, Bool.not_false, if_true, List.countP_cons, hp]
      rw [ih]
      push_cast
      ring

/-- The accumulated distance is `(#unfound tokens) / (#tokens)`. -/
theorem dist_eq_countP (str_short str_long : List Char) :
    (get_asymmetric_token_distance str_short str_long).1
      = ((token_rejoin str_short).countP (fun t => !re_search t str_long))
        * (1 / ((token_rejoin str_short).length : ℚ)) := by
  unfold get_asymmetric_token_distance
  rw [dist_foldl_eq]
  simp

theorem dist_nonneg (str_short str_long : List Char) :
    0 ≤ (get_asymmetric_token_distance str_short str_long).1 := by
  rw [dist_eq_countP]
  positivity

theorem dist_le_one (str_short str_long : List Char) :
    (get_asymmetric_token_distance str_short str_long).1 ≤ 1 := by
  rw [dist_eq_countP]
  rcases Nat.eq_zero_or_pos (token_rejoin str_short).length with h0 | hpos
  · rw [h0]
    simp
  · have hcount : ((token_rejoin str_short).countP
        (fun t => !re_search t str_long) : ℚ)
        ≤ ((token_rejoin str_short).length : ℚ) := by
      exact_mod_cast List.countP_le_length _
    have hn : (0 : ℚ) < ((token_rejoin str_short).length : ℚ) := by
      exact_mod_cast hpos
    rw [mul_one_div]
    rw [div_le_one hn]
    exact hcount

/-! ## Python `round(x, 2)` (banker's rounding to two decimals) -/

/-- Round a rational to the nearest integer, ties to the even neighbour
(the rounding of Python's built-in `round`). -/
def round_half_even (q : ℚ) : ℤ :=
  if q - ⌊q⌋ < 1 / 2 then ⌊q⌋
  else if 1 / 2 < q - ⌊q⌋ then ⌊q⌋ + 1
  else if ⌊q⌋ % 2 = 0 then ⌊q⌋ else ⌊q⌋ + 1

/-- Python `round(x, 2)`. -/
def py_round2 (q : ℚ) : ℚ := (round_half_even (q * 100) : ℚ) / 100

theorem round_half_even_bounds {q : ℚ} (h0 : 0 ≤ q) (h1 : q ≤ 100) :
    0 ≤ round_half_even q ∧ round_half_even q ≤ 100 := by
  have hf0 : (0 : ℤ) ≤ ⌊q⌋ := Int.floor_nonneg.mpr h0
  have hfq : (⌊q⌋ : ℚ) ≤ q := Int.floor_le q
  have hf100 : ⌊q⌋ ≤ 100 := by
    have h : (⌊q⌋ : ℚ) ≤ 100 := le_trans hfq h1
    exact_mod_cast h
  unfold round_half_even
  split
  · exact ⟨hf0, hf100⟩
  · rename_i hlt
    push_neg at hlt
    split
    · rename_i hgt
      have h99 : ⌊q⌋ < 100 := by
        have h : (⌊q⌋ : ℚ) < 100 := by linarith
        exact_mod_cast h
      omega
    · rename_i heq
      push_neg at heq
      have hhalf : q - ⌊q⌋ = 1 / 2 := le_antisymm heq hlt
      have h99 : ⌊q⌋ < 100 := by
        have h : (⌊q⌋ : ℚ) < 100 := by linarith
        exact_mod_cast h
      split
      · exact ⟨hf0, hf100⟩
      · omega

theorem py_round2_shape {q : ℚ} (h0 : 0 ≤ q) (h1 : q ≤ 1) :
    ∃ k : ℤ, py_round2 q = (k : ℚ) / 100 ∧ 0 ≤ k ∧ k ≤ 100 := by
  have hb := round_half_even_bounds (q := q * 100) (by positivity) (by linarith)
  exact ⟨round_half_even (q * 100), rfl, hb.1, hb.2⟩

theorem py_round2_mem_unit {q : ℚ} (h0 : 0 ≤ q) (h1 : q ≤ 1) :
    0 ≤ py_round2 q ∧ py_round2 q ≤ 1 := by
  have hb := round_half_even_bounds (q := q * 100) (by positivity) (by linarith)
  unfold py_round2
  constructor
  · apply div_nonneg _ (by norm_num)
    exact_mod_cast hb.1
  · rw [div_le_one (by norm_num)]
    exact_mod_cast hb.2

/-! ## Claim C8 (Asymmetric Distance Scorer) -/

/-- C8 counterexample: for the strongClean'd pair `("", "x")` the condition
"no token of the short string occurs in the long string" holds vacuously
(the token list is empty), yet the distance is 0, not 1 as claimed. -/
theorem C8_no_token_dist_counterexample :
    token_rejoin (cs ([] : List Char)) = [] ∧
    (get_asymmetric_token_distance (cs ([] : List Char)) (cs ['x'])).1 = 0 ∧
    (get_asymmetric_token_distance (cs ([] : List Char)) (cs ['x'])).1 ≠ 1 := by
  refine ⟨rfl, rfl, by decide⟩

/-- C8 (amended): for every pair of strongClean'd strings such that the
short string has at least one token after one-letter rejoining and no token
occurs as a contiguous substring of the long string, the asymmetric
distance is exactly 1. -/
theorem C8_all_tokens_unfound_dist_one (a b : List Char)
    (hne : token_rejoin (cs a) ≠ [])
    (hno : ∀ t ∈ token_rejoin (cs a), ¬ t <:+: cs b) :
    (get_asymmetric_token_distance (cs a) (cs b)).1 = 1 := by
  rw [dist_eq_countP]
  have hall : (token_rejoin (cs a)).countP (fun t => !re_search t (cs b))
      = (token_rejoin (cs a)).length := by
    apply List.countP_eq_length.mpr
    intro t ht
    have h := hno t ht
    rw [← re_search_iff] at h
    simpa using h
  rw [hall]
  have hn : (0 : ℚ) < ((token_rejoin (cs a)).length : ℚ) := by
    have h : 0 < (token_rejoin (cs a)).length := List.length_pos.mpr hne
    exact_mod_cast h
  rw [mul_one_div, div_self (ne_of_gt hn)]

/-- C8 amended witness at the concrete pair ("zq", "xy"). -/
theorem C8_all_tokens_unfound_witness :
    token_rejoin (cs "zq".toList) ≠ [] ∧
    (get_asymmetric_token_distance (cs "zq".toList) (cs "xy".toList)).1 = 1 :=
  ⟨by decide,
   C8_all_tokens_unfound_dist_one "zq".toList "xy".toList (by decide) (by decide)⟩

/-! ## Candidate Ranker (src/extraction_helpers.py, `extract_youtube_link`) -/

/-- Value of `youtube_url_prefix` in src/constants.py. -/
def youtube_url_root : List Char := "https://www.youtube.com".toList

/-- One search result (youtube_search) together with the metadata fetched
for it (youtube_dl).  The optional fields mirror the `"x" in result` tests
and the possibly missing `meta['duration']` of the source. -/
structure Candidate where
  url_suffix : List Char
  title : Option (List Char)
  long_desc : Option (List Char)
  channel : Option (List Char)
  duration : Option ℕ
  meta_dump : List Char
deriving DecidableEq

/-- Lines 58-76: the combined metadata string, missing fields silently
skipped. -/
def combined_meta (c : Candidate) : List Char :=
  c.meta_dump ++ [' ']
    ++ (match c.title with | some t => t ++ [' '] | none => [])
    ++ (match c.long_desc with | some d => d ++ [' '] | none => [])
    ++ (match c.channel with | some ch => ch | none => [])

/-- The computed fields the scan writes onto the track dictionary (every
key absent until first set). -/
structure TrackFields where
  metadata_artist : Option (List Char) := none
  artist_dist : Option ℚ := none
  metadata_song_name : Option (List Char) := none
  song_name_dist : Option ℚ := none
  youtube_url_confidence : Option ℚ := none
  official : Bool := false
  youtube_url : Option (List Char) := none
  result_idx : Option ℕ := none
deriving DecidableEq

/-- Confidence score of one candidate (lines 79-99): asymmetric distances
of the cleaned artist and title against the cleaned metadata string,
averaged, then forced to 0 when the duration reaches 15 minutes. -/
def candidate_confidence (cleaned_artist cleaned_song : List Char)
    (c : Candidate) : ℚ :=
  let meta := cs (combined_meta c)
  let artist_dist := (get_asymmetric_token_distance cleaned_artist meta).1
  let song_name_dist := (get_asymmetric_token_distance cleaned_song meta).1
  let confidence_score := ((1 - song_name_dist) + (1 - artist_dist)) / 2
  if c.duration.getD 0 ≥ 15 * 60 then 0 else confidence_score

/-- Stored confidence under Python's dict access (the scan only reads it
after it has been set). -/
def conf_of (st : TrackFields) : ℚ := st.youtube_url_confidence.getD 0

/-- One iteration of the result loop (lines 41-120) for candidate `c` at
index `i`. -/
def scan_step (a s : List Char) (st : TrackFields) (i : ℕ) (c : Candidate) :
    TrackFields :=
  let meta := cs (combined_meta c)
  let adp := get_asymmetric_token_distance a meta
  let sdp := get_asymmetric_token_distance s meta
  let check_official := re_search "official".toList meta
  let confidence_score := candidate_confidence a s c
  let update := (i == 0) ||
    (match st.youtube_url_confidence with
     | some b => decide (confidence_score > b)
     | none => false)
  if update then
    { metadata_artist := some adp.2
      artist_dist := some adp.1
      metadata_song_name := some sdp.2
      song_name_dist := some sdp.1
      youtube_url_confidence := some confidence_score
      official := st.official || check_official
      youtube_url := some (youtube_url_root ++ c.url_suffix)
      result_idx := some i }
  else st

/-- The scan over the concatenated result list, with the 0.8 early exit
(line 119). -/
def scan_go (a s : List Char) : TrackFields → ℕ → List Candidate → TrackFields
  | st, _, [] => st
  | st, i, c :: rest =>
    let st' := scan_step a s st i c
    if conf_of st' > (0.8 : ℚ) then st'
    else scan_go a s st' (i + 1) rest

/-- The same scan, returning the sequence of intermediate track states
(`scan_trace ... st i cands` starts with `st`). -/
def scan_trace (a s : List Char) :
    TrackFields → ℕ → List Candidate → List TrackFields
  | st, _, [] => [st]
  | st, i, c :: rest =>
    let st' := scan_step a s st i c
    if conf_of st' > (0.8 : ℚ) then [st, st']
    else st :: scan_trace a s st' (i + 1) rest

/-- The track dictionary after `extract_youtube_link`. -/
structure ExtractedTrack where
  search_terms : List Char
  cleaned_artist : List Char
  cleaned_song_name : List Char
  fields : TrackFields
deriving DecidableEq

/-- `extract_youtube_link` of src/extraction_helpers.py, with the two
search calls and the per-candidate metadata fetches supplied as data (they
are external capabilities).  The final `round(track["youtube_url_confidence"], 2)`
raises a `KeyError` when the key was never set. -/
def extract_youtube_link (artists song_name : List Char)
    (results_1 results_2 : List Candidate) : Except String ExtractedTrack :=
  let search_terms := ct (artists ++ [' '] ++ song_name ++ " official".toList)
  let results := results_1 ++ results_2
  let cleaned_artist := cs artists
  let cleaned_song_name := cs song_name
  let final := scan_go cleaned_artist cleaned_song_name {} 0 results
  match final.youtube_url_confidence with
  | none => Except.error "KeyError: youtube_url_confidence"
  | some q =>
    Except.ok
      { search_terms := search_terms
        cleaned_artist := cleaned_artist
        cleaned_song_name := cleaned_song_name
        fields := { final with youtube_url_confidence := some (py_round2 q) } }

/-! ## Step-level facts about the scan -/

/-- The update condition of line 102:
`res_idx == 0 or confidence_score > track["youtube_url_confidence"]`. -/
def step_update (a s : List Char) (st : TrackFields) (i : ℕ) (c : Candidate) :
    Bool :=
  (i == 0) ||
    (match st.youtube_url_confidence with
     | some b => decide (candidate_confidence a s c > b)
     | none => false)

theorem scan_step_eq (a s : List Char) (st : TrackFields) (i : ℕ) (c : Candidate) :
    scan_step a s st i c =
      if step_update a s st i c then
        { metadata_artist :=
            some (get_asymmetric_token_distance a (cs (combined_meta c))).2
          artist_dist :=
            some (get_asymmetric_token_distance a (cs (combined_meta c))).1
          metadata_song_name :=
            some (get_asymmetric_token_distance s (cs (combined_meta c))).2
          song_name_dist :=
            some (get_asymmetric_token_distance s (cs (combined_meta c))).1
          youtube_url_confidence := some (candidate_confidence a s c)
          official := st.official || re_search "official".toList (cs (combined_meta c))
          youtube_url := some (youtube_url_root ++ c.url_suffix)
          result_idx := some i }
      else st := rfl

theorem step_update_iff {a s : List Char} {st : TrackFields} {i : ℕ}
    {c : Candidate} :
    step_update a s st i c = true ↔
      i = 0 ∨ ∃ b, st.youtube_url_confidence = some b ∧
        candidate_confidence a s c > b := by
  unfold step_update
  cases hc : st.youtube_url_confidence with
  | none => simp
  | some b => simp

theorem candidate_confidence_mem_unit (a s : List Char) (c : Candidate) :
    0 ≤ candidate_confidence a s c ∧ candidate_confidence a s c ≤ 1 := by
  simp only [candidate_confidence]
  split
  · norm_num
  · constructor
    · have h1 := dist_le_one s (cs (combined_meta c))
      have h2 := dist_le_one a (cs (combined_meta c))
      linarith
    · have h1 := dist_nonneg s (cs (combined_meta c))
      have h2 := dist_nonneg a (cs (combined_meta c))
      linarith

theorem conf_scan_step (a s : List Char) (st : TrackFields) (i : ℕ) (c : Candidate) :
    (scan_step a s st i c).youtube_url_confidence =
      if step_update a s st i c then some (candidate_confidence a s c)
      else st.youtube_url_confidence := by
  rw [scan_step_eq]
  split <;> rfl

theorem result_idx_scan_step (a s : List Char) (st : TrackFields) (i : ℕ)
    (c : Candidate) :
    (scan_step a s st i c).result_idx =
      if step_update a s st i c then some i else st.result_idx := by
  rw [scan_step_eq]
  split <;> rfl

/-- At index 0 the update always fires and afterwards the stored confidence
is always present. -/
theorem isSome_conf_scan_step {a s : List Char} {st : TrackFields} {i : ℕ}
    {c : Candidate} (h : i = 0 ∨ st.youtube_url_confidence.isSome) :
    (scan_step a s st i c).youtube_url_confidence.isSome := by
  rw [conf_scan_step]
  split
  · rfl
  · rename_i hu
    rcases h with rfl | h
    · exact absurd (step_update_iff.mpr (Or.inl rfl)) (by simpa using hu)
    · exact h

theorem conf_of_le_scan_step {a s : List Char} {st : TrackFields} {i : ℕ}
    {c : Candidate}
    (h : (i = 0 ∧ st = {}) ∨ (i ≠ 0 ∧ st.youtube_url_confidence.isSome)) :
    conf_of st ≤ conf_of (scan_step a s st i c) := by
  rcases h with ⟨rfl, rfl⟩ | ⟨hi, hsome⟩
  · unfold conf_of
    rw [conf_scan_step]
    split
    · simpa using (candidate_confidence_mem_unit a s c).1
    · exact le_refl _
  · unfold conf_of
    rw [conf_scan_step]
    split
    · rename_i hu
      rcases step_update_iff.mp hu with hi0 | ⟨b, hb, hgt⟩
      · exact absurd hi0 hi
      · rw [hb]
        simpa using le_of_lt hgt
    · exact le_refl _

/-! ## Scan-level invariants -/

theorem isSome_conf_scan_go {a s : List Char} :
    ∀ (l : List Candidate) (st : TrackFields) (i : ℕ),
      st.youtube_url_confidence.isSome →
      (scan_go a s st i l).youtube_url_confidence.isSome := by
  intro l
  induction l with
  | nil => intro st i h; exact h
  | cons c rest ih =>
    intro st i h
    simp only [scan_go]
    have hst' : (scan_step a s st i c).youtube_url_confidence.isSome :=
      isSome_conf_scan_step (Or.inr h)
    split
    · exact hst'
    · exact ih _ _ hst'

theorem conf_bounds_scan_go {a s : List Char} :
    ∀ (l : List Candidate) (st : TrackFields) (i : ℕ),
      (∀ q, st.youtube_url_confidence = some q → 0 ≤ q ∧ q ≤ 1) →
      ∀ q, (scan_go a s st i l).youtube_url_confidence = some q →
        0 ≤ q ∧ q ≤ 1 := by
  intro l
  induction l with
  | nil => intro st i h; exact h
  | cons c rest ih =>
    intro st i h
    have hst' : ∀ q, (scan_step a s st i c).youtube_url_confidence = some q →
        0 ≤ q ∧ q ≤ 1 := by
      intro q hq
      rw [conf_scan_step] at hq
      split at hq
      · cases hq
        exact candidate_confidence_mem_unit a s c
      · exact h q hq
    simp only [scan_go]
    split
    · exact hst'
    · exact ih _ _ hst'

/-- A nonempty scan from the fresh track always records a confidence
(the index-0 update is unconditional). -/
theorem isSome_conf_scan_go_nonempty {a s : List Char} {l : List Candidate}
    (h : l ≠ []) :
    (scan_go a s {} 0 l).youtube_url_confidence.isSome := by
  cases l with
  | nil => exact absurd rfl h
  | cons c rest =>
    simp only [scan_go]
    have hst' : (scan_step a s {} 0 c).youtube_url_confidence.isSome :=
      isSome_conf_scan_step (Or.inl rfl)
    split
    · exact hst'
    · exact isSome_conf_scan_go _ _ _ hst'

/-- Winner coupling: whatever index the scan leaves in `result_idx`, the
stored confidence is exactly that candidate's score (unless both fields
are untouched copies of the starting state). -/
theorem scan_go_winner {a s : List Char} :
    ∀ (l : List Candidate) (st : TrackFields) (i : ℕ) (j : ℕ),
      (scan_go a s st i l).result_idx = some j →
      ((scan_go a s st i l).result_idx = st.result_idx ∧
        (scan_go a s st i l).youtube_url_confidence
          = st.youtube_url_confidence) ∨
      (i ≤ j ∧ ∃ cj, l.get? (j - i) = some cj ∧
        (scan_go a s st i l).youtube_url_confidence
          = some (candidate_confidence a s cj)) := by
  intro l
  induction l with
  | nil => intro st i j _; exact Or.inl ⟨rfl, rfl⟩
  | cons c rest ih =>
    intro st i j hj
    simp only [scan_go] at hj ⊢
    by_cases hexit : conf_of (scan_step a s st i c) > (0.8 : ℚ)
    · rw [if_pos hexit] at hj ⊢
      by_cases hu : step_update a s st i c = true
      · have hidx : (scan_step a s st i c).result_idx = some i := by
          rw [result_idx_scan_step, if_pos hu]
        rw [hidx] at hj
        cases hj
        refine Or.inr ⟨le_refl _, c, by simp, ?_⟩
        rw [conf_scan_step, if_pos hu]
      · have hstep : scan_step a s st i c = st := by
          rw [scan_step_eq, if_neg hu]
        rw [hstep]
        exact Or.inl ⟨rfl, rfl⟩
    · rw [if_neg hexit] at hj ⊢
      by_cases hu : step_update a s st i c = true
      · have hidx : (scan_step a s st i c).result_idx = some i := by
          rw [result_idx_scan_step, if_pos hu]
        have hconf : (scan_step a s st i c).youtube_url_confidence
            = some (candidate_confidence a s c) := by
          rw [conf_scan_step, if_pos hu]
        rcases ih _ _ _ hj with ⟨h1, h2⟩ | ⟨hle, cj, hget, hconf'⟩
        · rw [hidx] at h1
          rw [h1] at hj
          cases hj
          refine Or.inr ⟨le_refl _, c, by simp, ?_⟩
          rw [h2, hconf]
        · refine Or.inr ⟨Nat.le_trans (Nat.le_succ _) hle, cj, ?_, hconf'⟩
          have hji : j - i = (j - (i + 1)) + 1 := by omega
          rw [hji]
          simpa using hget
      · have hstep : scan_step a s st i c = st := by
          rw [scan_step_eq, if_neg hu]
        rw [hstep] at hj ⊢
        rcases ih _ _ _ hj with ⟨h1, h2⟩ | ⟨hle, cj, hget, hconf'⟩
        · exact Or.inl ⟨h1, h2⟩
        · refine Or.inr ⟨Nat.le_trans (Nat.le_succ _) hle, cj, ?_, hconf'⟩
          have hji : j - i = (j - (i + 1)) + 1 := by omega
          rw [hji]
          simpa using hget

/-- If the scan ends below the early-exit threshold, every scanned
candidate's score is bounded by the final confidence. -/
theorem scan_go_all_le {a s : List Char} :
    ∀ (l : List Candidate) (st : TrackFields) (i : ℕ) (q : ℚ),
      ((i = 0 ∧ st = {}) ∨ (i ≠ 0 ∧ st.youtube_url_confidence.isSome)) →
      (scan_go a s st i l).youtube_url_confidence = some q →
      q ≤ (0.8 : ℚ) →
      (∀ c ∈ l, candidate_confidence a s c ≤ q) ∧
      (∀ b, st.youtube_url_confidence = some b → b ≤ q) := by
  intro l
  induction l with
  | nil =>
    intro st i q _ hq _
    simp only [scan_go] at hq
    refine ⟨by simp, ?_⟩
    intro b hb
    rw [hb] at hq
    cases hq
    exact le_refl _
  | cons c rest ih =>
    intro st i q hinv hq hle
    simp only [scan_go] at hq
    have hsome' : (scan_step a s st i c).youtube_url_confidence.isSome := by
      apply isSome_conf_scan_step
      rcases hinv with ⟨rfl, _⟩ | ⟨_, h⟩
      · exact Or.inl rfl
      · exact Or.inr h
    by_cases hexit : conf_of (scan_step a s st i c) > (0.8 : ℚ)
    · rw [if_pos hexit] at hq
      have hc : conf_of (scan_step a s st i c) = q := by
        unfold conf_of
        rw [hq]
        rfl
      rw [hc] at hexit
      exact absurd hle (by push_neg; exact hexit)
    · rw [if_neg hexit] at hq
      have ihres := ih (scan_step a s st i c) (i + 1) q
        (Or.inr ⟨Nat.succ_ne_zero i, hsome'⟩) hq hle
      have hhead : candidate_confidence a s c ≤ q := by
        by_cases hu : step_update a s st i c = true
        · apply ihres.2
          rw [conf_scan_step, if_pos hu]
        · have hu' : ((i == 0) ||
              (match st.youtube_url_confidence with
               | some b => decide (candidate_confidence a s c > b)
               | none => false)) = false := by
            rw [← Bool.not_eq_true]
            simpa [step_update] using hu
          rcases hinv with ⟨rfl, rfl⟩ | ⟨hi, hsome⟩
          · simp at hu'
          · rcases Option.isSome_iff_exists.mp hsome with ⟨b, hb⟩
            rw [hb] at hu'
            simp only [Bool.or_eq_false_iff, decide_eq_false_iff_not] at hu'
            have hble : b ≤ q := by
              apply ihres.2
              rw [scan_step_eq, if_neg hu]
              exact hb
            have hnb : candidate_confidence a s c ≤ b := by
              have h := hu'.2
              push_neg at h
              exact h
            exact le_trans hnb hble
      refine ⟨?_, ?_⟩
      · intro c' hc'
        rcases List.mem_cons.mp hc' with rfl | hc''
        · exact hhead
        · exact ihres.1 c' hc''
      · intro b hb
        by_cases hu : step_update a s st i c = true
        · rcases step_update_iff.mp hu with rfl | ⟨b'', hb'', hgt⟩
          · rcases hinv with ⟨_, rfl⟩ | ⟨hi, _⟩
            · cases hb
            · exact absurd rfl hi
          · rw [hb] at hb''
            cases hb''
            exact le_of_lt (lt_of_lt_of_le hgt hhead)
        · apply ihres.2
          rw [scan_step_eq, if_neg hu]
          exact hb

/-! ## Claims C2 and C6 (Candidate Ranker) -/

/-- C2: the claim fails on the code for an empty concatenated result list —
`round(track["youtube_url_confidence"], 2)` raises a `KeyError` because the
key was never initialised, so no confidence (not even 0) is recorded and
the extraction does not return successfully.  With at least one candidate
the extraction succeeds and the recorded confidence lies in [0, 1] and is
an integer number of hundredths (rounded to 2 decimals). -/
theorem C2_confidence_recorded (artists song_name : List Char) :
    (extract_youtube_link artists song_name [] []
        = Except.error "KeyError: youtube_url_confidence") ∧
    (∀ results_1 results_2 : List Candidate, results_1 ++ results_2 ≠ [] →
      ∃ t : ExtractedTrack, ∃ q : ℚ,
        extract_youtube_link artists song_name results_1 results_2
          = Except.ok t ∧
        t.fields.youtube_url_confidence = some q ∧
        0 ≤ q ∧ q ≤ 1 ∧ ∃ k : ℤ, q = (k : ℚ) / 100 ∧ 0 ≤ k ∧ k ≤ 100) := by
  constructor
  · rfl
  · intro results_1 results_2 hne
    have hsome := isSome_conf_scan_go_nonempty
      (a := cs artists) (s := cs song_name) (l := results_1 ++ results_2) hne
    rcases Option.isSome_iff_exists.mp hsome with ⟨q0, hq0⟩
    have hb := conf_bounds_scan_go (results_1 ++ results_2) {} 0
      (by intro q hq; cases hq) q0 hq0
    simp only [extract_youtube_link, hq0]
    refine ⟨_, py_round2 q0, rfl, rfl, (py_round2_mem_unit hb.1 hb.2).1,
      (py_round2_mem_unit hb.1 hb.2).2, py_round2_shape hb.1 hb.2⟩

/-- C2 witness: a concrete track with one candidate. -/
theorem C2_confidence_recorded_witness :
    ∃ t : ExtractedTrack, ∃ q : ℚ,
      extract_youtube_link "a".toList "b".toList
        [{ url_suffix := "/w".toList, title := none, long_desc := none,
           channel := none, duration := some 200, meta_dump := "a b".toList }] []
        = Except.ok t ∧
      t.fields.youtube_url_confidence = some q ∧
      0 ≤ q ∧ q ≤ 1 ∧ ∃ k : ℤ, q = (k : ℚ) / 100 ∧ 0 ≤ k ∧ k ≤ 100 :=
  (C2_confidence_recorded "a".toList "b".toList).2
    [{ url_suffix := "/w".toList, title := none, long_desc := none,
       channel := none, duration := some 200, meta_dump := "a b".toList }] []
    (by decide)

/-- C6: a candidate whose duration is at least 900 seconds has its
confidence forced to 0 before the best-match comparison; if such a
candidate ends up as the best match, the stored confidence is 0 and no
candidate of the scan scored above 0. -/
theorem C6_duration_filter (a s : List Char) (cands : List Candidate)
    (i : ℕ) (ci : Candidate) (hget : cands.get? i = some ci)
    (hdur : ci.duration.getD 0 ≥ 15 * 60) :
    candidate_confidence a s ci = 0 ∧
    ((scan_go a s {} 0 cands).result_idx = some i →
      (scan_go a s {} 0 cands).youtube_url_confidence = some 0 ∧
      ∀ c ∈ cands, candidate_confidence a s c ≤ 0) := by
  have hzero : candidate_confidence a s ci = 0 := by
    simp only [candidate_confidence]
    rw [if_pos hdur]
  refine ⟨hzero, ?_⟩
  intro hwin
  rcases scan_go_winner cands {} 0 i hwin with ⟨h1, _⟩ | ⟨_, cj, hget', hconf⟩
  · rw [hwin] at h1
    simp at h1
  · have hcj : cj = ci := by
      rw [Nat.sub_zero, hget] at hget'
      exact (Option.some.inj hget').symm
    subst hcj
    rw [hzero] at hconf
    refine ⟨hconf, ?_⟩
    have hall := scan_go_all_le cands {} 0 0 (Or.inl ⟨rfl, rfl⟩) hconf
      (by norm_num)
    exact hall.1

unseal Rat.inv Rat.add Rat.mul Rat.sub Rat.ofScientific in
/-- C6 witness: a single 900-second candidate wins with score 0. -/
theorem C6_duration_filter_witness :
    (scan_go "a".toList "a".toList {} 0
        [{ url_suffix := "/v".toList, title := none, long_desc := none,
           channel := none, duration := some 900, meta_dump := "a".toList }]
      ).youtube_url_confidence = some 0 ∧
    ∀ c ∈ [({ url_suffix := "/v".toList, title := none, long_desc := none,
               channel := none, duration := some 900,
               meta_dump := "a".toList } : Candidate)],
      candidate_confidence "a".toList "a".toList c ≤ 0 :=
  (C6_duration_filter "a".toList "a".toList
      [{ url_suffix := "/v".toList, title := none, long_desc := none,
         channel := none, duration := some 900, meta_dump := "a".toList }]
      0
      { url_suffix := "/v".toList, title := none, long_desc := none,
        channel := none, duration := some 900, meta_dump := "a".toList }
      (by decide) (by decide)).2 (by decide)

/-! ## Trace-level facts for the monotonicity claim -/

/-- One-step change criterion: starting from a reachable state, the step
rewrites the best-match fields exactly when the index is 0 or the new
score strictly exceeds the stored confidence. -/
theorem scan_step_ne_iff {a s : List Char} {st : TrackFields} {i : ℕ}
    {c : Candidate}
    (hinv : (i = 0 ∧ st = {}) ∨
      (0 < i ∧ st.youtube_url_confidence.isSome ∧
        ∀ j, st.result_idx = some j → j < i)) :
    scan_step a s st i c ≠ st ↔
      (i = 0 ∨ candidate_confidence a s c > conf_of st) := by
  constructor
  · intro hne
    by_cases hu : step_update a s st i c = true
    · rcases step_update_iff.mp hu with h0 | ⟨b, hb, hgt⟩
      · exact Or.inl h0
      · right
        unfold conf_of
        rw [hb]
        simpa using hgt
    · exact absurd (by rw [scan_step_eq, if_neg hu]) hne
  · intro hor
    have hu : step_update a s st i c = true := by
      apply step_update_iff.mpr
      by_cases hi : i = 0
      · exact Or.inl hi
      · rcases hinv with ⟨h1, _⟩ | ⟨_, h2, _⟩
        · exact absurd h1 hi
        · rcases Option.isSome_iff_exists.mp h2 with ⟨b, hb⟩
          refine Or.inr ⟨b, hb, ?_⟩
          rcases hor with h0 | hgt
          · exact absurd h0 hi
          · unfold conf_of at hgt
            rw [hb] at hgt
            simpa using hgt
    intro hEq
    have hidx : (scan_step a s st i c).result_idx = some i := by
      rw [result_idx_scan_step, if_pos hu]
    rcases hinv with ⟨_, rfl⟩ | ⟨_, _, hj⟩
    · rw [hEq] at hidx
      cases hidx
    · rw [hEq] at hidx
      have := hj i hidx
      omega

/-- Full specification of the scan trace: the trace starts at the given
state, the stored confidence is monotonically non-decreasing along it, and
adjacent states differ exactly when the update condition of line 102
holds (`getD` reads the trace, resp. the candidate list, at a position the
length hypotheses keep in range). -/
theorem scan_trace_spec (a s : List Char) (cdef : Candidate) :
    ∀ (cands : List Candidate) (st : TrackFields) (i : ℕ),
      ((i = 0 ∧ st = {}) ∨
        (0 < i ∧ st.youtube_url_confidence.isSome ∧
          ∀ j, st.result_idx = some j → j < i)) →
      (scan_trace a s st i cands).head? = some st ∧
      ((scan_trace a s st i cands).map conf_of).Chain' (· ≤ ·) ∧
      (∀ k, k + 1 < (scan_trace a s st i cands).length → k < cands.length →
        ((scan_trace a s st i cands).getD (k + 1) {}
            ≠ (scan_trace a s st i cands).getD k {} ↔
          (i + k = 0 ∨
            candidate_confidence a s (cands.getD k cdef)
              > conf_of ((scan_trace a s st i cands).getD k {})))) := by
  intro cands
  induction cands with
  | nil =>
    intro st i _
    refine ⟨rfl, by simp [scan_trace], ?_⟩
    intro k hk _
    simp only [scan_trace, List.length_singleton] at hk
    omega
  | cons c rest ih =>
    intro st i hinv
    have hinv' : (i = 0 ∧ st = {}) ∨
        (i ≠ 0 ∧ st.youtube_url_confidence.isSome) := by
      rcases hinv with ⟨h1, h2⟩ | ⟨h1, h2, _⟩
      · exact Or.inl ⟨h1, h2⟩
      · exact Or.inr ⟨Nat.pos_iff_ne_zero.mp h1, h2⟩
    have hmono : conf_of st ≤ conf_of (scan_step a s st i c) :=
      conf_of_le_scan_step hinv'
    have hsome' : (scan_step a s st i c).youtube_url_confidence.isSome := by
      apply isSome_conf_scan_step
      rcases hinv' with ⟨h1, _⟩ | ⟨_, h2⟩
      · exact Or.inl h1
      · exact Or.inr h2
    have hneq := scan_step_ne_iff (a := a) (s := s) (c := c) hinv
    have htr2 : scan_trace a s st i (c :: rest) =
        if conf_of (scan_step a s st i c) > (0.8 : ℚ) then
          [st, scan_step a s st i c]
        else st :: scan_trace a s (scan_step a s st i c) (i + 1) rest := rfl
    by_cases hexit : conf_of (scan_step a s st i c) > (0.8 : ℚ)
    · rw [if_pos hexit] at htr2
      rw [htr2]
      refine ⟨rfl, ?_, ?_⟩
      · simpa [List.chain'_cons] using hmono
      · intro k hk hkc
        have hk0 : k = 0 := by
          simp only [List.length_cons, List.length_nil] at hk
          omega
        subst hk0
        simpa using hneq
    · rw [if_neg hexit] at htr2
      rw [htr2]
      have hidxinv : ∀ j, (scan_step a s st i c).result_idx = some j →
          j < i + 1 := by
        intro j hj
        rw [result_idx_scan_step] at hj
        split at hj
        · cases hj
          omega
        · rcases hinv with ⟨_, rfl⟩ | ⟨_, _, hjlt⟩
          · cases hj
          · exact Nat.lt_succ_of_lt (hjlt j hj)
      obtain ⟨ih1, ih2, ih3⟩ := ih (scan_step a s st i c) (i + 1)
        (Or.inr ⟨Nat.succ_pos i, hsome', hidxinv⟩)
      refine ⟨rfl, ?_, ?_⟩
      · rw [List.map_cons]
        refine List.chain'_cons'.mpr ⟨?_, ih2⟩
        intro y hy
        rw [List.head?_map, ih1] at hy
        simp only [Option.map_some', Option.mem_def, Option.some.injEq] at hy
        rw [← hy]
        exact hmono
      · intro k hk hkc
        rcases htr : scan_trace a s (scan_step a s st i c) (i + 1) rest
          with _ | ⟨x, t⟩
        · rw [htr] at ih1
          cases ih1
        · have hx : x = scan_step a s st i c := by
            rw [htr] at ih1
            exact Option.some.inj ih1
          subst hx
          cases k with
          | zero =>
            simp only [htr, List.getD_cons_succ, List.getD_cons_zero,
              Nat.add_zero]
            simpa using hneq
          | succ k' =>
            have hk' : k' + 1 <
                (scan_trace a s (scan_step a s st i c) (i + 1) rest).length := by
              simp only [List.length_cons] at hk
              omega
            have hkc' : k' < rest.length := by
              simp only [List.length_cons] at hkc
              omega
            have hres := ih3 k' hk' hkc'
            have hplus : i + 1 + k' = i + (k' + 1) := by omega
            rw [hplus, htr] at hres
            simpa [List.getD_cons_succ] using hres

/-! ## Claim C5 (scan monotonicity and update condition) -/

/-- C5: during the candidate scan of a single track (entered at index 0
with no field set), the stored confidence is monotonically non-decreasing
along the trace, and the best-match fields are overwritten exactly when
the candidate index is 0 or the new candidate's confidence is strictly
greater than the current best confidence. -/
theorem C5_scan_monotone_and_update (a s : List Char) (cands : List Candidate)
    (cdef : Candidate) :
    ((scan_trace a s {} 0 cands).map conf_of).Chain' (· ≤ ·) ∧
    (∀ k, k + 1 < (scan_trace a s {} 0 cands).length → k < cands.length →
      ((scan_trace a s {} 0 cands).getD (k + 1) {}
          ≠ (scan_trace a s {} 0 cands).getD k {} ↔
        (k = 0 ∨
          candidate_confidence a s (cands.getD k cdef)
            > conf_of ((scan_trace a s {} 0 cands).getD k {})))) := by
  obtain ⟨_, h2, h3⟩ := scan_trace_spec a s cdef cands {} 0 (Or.inl ⟨rfl, rfl⟩)
  refine ⟨h2, ?_⟩
  intro k hk hkc
  have h := h3 k hk hkc
  simpa using h

unseal Rat.inv Rat.add Rat.mul Rat.sub Rat.ofScientific in
/-- C5 witness: one concrete candidate, whose index-0 update fires. -/
theorem C5_scan_monotone_and_update_witness :
    (((scan_trace "a".toList "b".toList {} 0
        [{ url_suffix := "/w".toList, title := none, long_desc := none,
           channel := none, duration := some 200,
           meta_dump := "a b".toList }]).map conf_of).Chain' (· ≤ ·)) ∧
    (scan_trace "a".toList "b".toList {} 0
        [{ url_suffix := "/w".toList, title := none, long_desc := none,
           channel := none, duration := some 200,
           meta_dump := "a b".toList }]).getD 1 {}
      ≠ (scan_trace "a".toList "b".toList {} 0
        [{ url_suffix := "/w".toList, title := none, long_desc := none,
           channel := none, duration := some 200,
           meta_dump := "a b".toList }]).getD 0 {} :=
  ⟨(C5_scan_monotone_and_update "a".toList "b".toList
      [{ url_suffix := "/w".toList, title := none, long_desc := none,
         channel := none, duration := some 200,
         meta_dump := "a b".toList }]
      { url_suffix := "/w".toList, title := none, long_desc := none,
        channel := none, duration := some 200,
        meta_dump := "a b".toList }).1,
   ((C5_scan_monotone_and_update "a".toList "b".toList
      [{ url_suffix := "/w".toList, title := none, long_desc := none,
         channel := none, duration := some 200,
         meta_dump := "a b".toList }]
      { url_suffix := "/w".toList, title := none, long_desc := none,
        channel := none, duration := some 200,
        meta_dump := "a b".toList }).2 0 (by decide) (by decide)).mpr
     (Or.inl rfl)⟩

/-! ## Retry wrapper and run counters (extraction_helpers.py)

extract_youtube_link carries @retry(stop=stop_after_attempt(5), ...): each
call is attempted up to five times; when every attempt raises, tenacity
raises RetryError to the caller.  perform_extraction wraps the call in
try/except, so the failure is absorbed into success=False and the shared
counters; the per-track oracle f gives attempt k's outcome. -/

def retry_go (f : ℕ → Except String Bool) : ℕ → ℕ → Except String Bool
  | _, 0 => Except.error "RetryError"
  | k, fuel + 1 =>
    match f k with
    | Except.ok b => Except.ok b
    | Except.error _ => retry_go f (k + 1) fuel

def extract_with_retry (f : ℕ → Except String Bool) : Except String Bool :=
  retry_go f 1 5

structure RunCounters where
  count : ℕ := 0
  succeeded : ℕ := 0
  failed : ℕ := 0
deriving DecidableEq

def perform_extraction (c : RunCounters) (attempts : ℕ → Except String Bool) :
    RunCounters :=
  match extract_with_retry attempts with
  | Except.ok true =>
      { count := c.count + 1, succeeded := c.succeeded + 1, failed := c.failed }
  | Except.ok false =>
      { count := c.count + 1, succeeded := c.succeeded, failed := c.failed + 1 }
  | Except.error _ =>
      { count := c.count + 1, succeeded := c.succeeded, failed := c.failed + 1 }

def run_extraction (tracks : List (ℕ → Except String Bool)) : RunCounters :=
  tracks.foldl perform_extraction {}

theorem RunCounters.ext_fields {a b : RunCounters} (h1 : a.count = b.count)
    (h2 : a.succeeded = b.succeeded) (h3 : a.failed = b.failed) : a = b := by
  cases a; cases b; simp_all

theorem retry_go_error_of_all_fail (f : ℕ → Except String Bool)
    (h : ∀ k, ∃ e, f k = Except.error e) :
    ∀ fuel k : ℕ, ∃ e, retry_go f k fuel = Except.error e := by
  intro fuel
  induction fuel with
  | zero => intro k; exact ⟨"RetryError", rfl⟩
  | succ n ih =>
    intro k
    obtain ⟨e, he⟩ := h k
    have hstep : retry_go f k (n + 1) = retry_go f (k + 1) n := by
      show (match f k with
        | Except.ok b => Except.ok b
        | Except.error _ => retry_go f (k + 1) n) = retry_go f (k + 1) n
      rw [he]
    rw [hstep]
    exact ih (k + 1)

theorem perform_extraction_ok (c : RunCounters) (g : ℕ → Except String Bool)
    (hg : extract_with_retry g = Except.ok true) :
    perform_extraction c g =
      { count := c.count + 1, succeeded := c.succeeded + 1, failed := c.failed } := by
  simp only [perform_extraction, hg]

theorem perform_extraction_fail (c : RunCounters) (g : ℕ → Except String Bool)
    (e : String) (hg : extract_with_retry g = Except.error e) :
    perform_extraction c g =
      { count := c.count + 1, succeeded := c.succeeded, failed := c.failed + 1 } := by
  simp only [perform_extraction, hg]

theorem run_fold_ok (l : List (ℕ → Except String Bool))
    (h : ∀ f ∈ l, extract_with_retry f = Except.ok true) :
    ∀ c : RunCounters, l.foldl perform_extraction c =
      { count := c.count + l.length, succeeded := c.succeeded + l.length,
        failed := c.failed } := by
  induction l with
  | nil => intro c; rfl
  | cons f l ih =>
    intro c
    have hf : extract_with_retry f = Except.ok true := h f (List.mem_cons_self f l)
    have hrest : ∀ g ∈ l, extract_with_retry g = Except.ok true :=
      fun g hg => h g (List.mem_cons_of_mem f hg)
    rw [List.foldl_cons, perform_extraction_ok c f hf, ih hrest]
    refine RunCounters.ext_fields ?_ ?_ rfl
    · show c.count + 1 + l.length = c.count + (f :: l).length
      simp only [List.length_cons]; omega
    · show c.succeeded + 1 + l.length = c.succeeded + (f :: l).length
      simp only [List.length_cons]; omega

/-! ## Claim C4 (retry exhaustion stays local to one track) -/

/-- C4: when all five retry attempts of one track's external call fail, the
retry wrapper surfaces an exception for that track only; in the run
counters the track is counted as failed while every other track is still
processed (counted, and as succeeded when its own extraction succeeds),
and the total count covers the whole run. -/
theorem C4_retry_exhaustion_isolated
    (pre post : List (ℕ → Except String Bool)) (bad : ℕ → Except String Bool)
    (hbad : ∀ k, ∃ e, bad k = Except.error e)
    (hok : ∀ f ∈ pre ++ post, extract_with_retry f = Except.ok true) :
    (∃ e, extract_with_retry bad = Except.error e) ∧
    run_extraction (pre ++ bad :: post) =
      { count := pre.length + post.length + 1,
        succeeded := pre.length + post.length,
        failed := 1 } := by
  have hbadr : ∃ e, extract_with_retry bad = Except.error e :=
    retry_go_error_of_all_fail bad hbad 5 1
  refine ⟨hbadr, ?_⟩
  obtain ⟨e, he⟩ := hbadr
  have hpre : ∀ f ∈ pre, extract_with_retry f = Except.ok true :=
    fun f hf => hok f (List.mem_append_left _ hf)
  have hpost : ∀ f ∈ post, extract_with_retry f = Except.ok true :=
    fun f hf => hok f (List.mem_append_right _ hf)
  unfold run_extraction
  rw [List.foldl_append, run_fold_ok pre hpre, List.foldl_cons,
    perform_extraction_fail _ bad e he, run_fold_ok post hpost]
  refine RunCounters.ext_fields ?_ ?_ ?_
  · show ({} : RunCounters).count + pre.length + 1 + post.length
      = pre.length + post.length + 1
    show 0 + pre.length + 1 + post.length = pre.length + post.length + 1
    omega
  · show ({} : RunCounters).succeeded + pre.length + post.length
      = pre.length + post.length
    show 0 + pre.length + post.length = pre.length + post.length
    omega
  · rfl

/-- C4 witness: three tracks; the middle track's every attempt raises, the
other two succeed. -/
theorem C4_retry_exhaustion_isolated_witness :
    (∃ e, extract_with_retry (fun _ => Except.error "boom") = Except.error e) ∧
    run_extraction [fun _ => Except.ok true, fun _ => Except.error "boom",
      fun _ => Except.ok true] =
      { count := 1 + 1 + 1, succeeded := 1 + 1, failed := 1 } := by
  have h := C4_retry_exhaustion_isolated
    [fun _ => Except.ok true] [fun _ => Except.ok true]
    (fun _ => Except.error "boom")
    (fun _ => ⟨"boom", rfl⟩)
    (by
      intro f hf
      rcases List.mem_append.mp hf with h1 | h1 <;>
        · rw [List.mem_singleton.mp h1]; rfl)
  exact h

/-! ## Main run (main.py)

main.py guards both the ThreadPool dispatch and write_dataframe behind
`if len(tracks) > 0`, but the closing log line always computes
execution_time / len(tracks) (line 53), so an empty track set raises
ZeroDivisionError there. -/

structure MainRunResult where
  dispatched : ℕ
  wrote : Bool
  report : Except String ℚ

def main_run (tracks : List (List Char × ℕ)) (execution_time : ℚ) :
    MainRunResult :=
  { dispatched := if 0 < tracks.length then tracks.length else 0,
    wrote := decide (0 < tracks.length),
    report := if tracks.length = 0 then
        Except.error "ZeroDivisionError: division by zero"
      else Except.ok (execution_time / (tracks.length : ℚ)) }

/-! ## Claim C1 (empty input run) -/

/-- C1: for an empty input track set the run performs no dispatch and no
write — both are behind the `len(tracks) > 0` guard — but the final
timing report divides execution_time by len(tracks) unconditionally and
so raises ZeroDivisionError instead of completing; the claim's
division-safety part fails on the code. -/
theorem C1_empty_run_division_by_zero (execution_time : ℚ) :
    (main_run [] execution_time).dispatched = 0 ∧
    (main_run [] execution_time).wrote = false ∧
    (main_run [] execution_time).report =
      Except.error "ZeroDivisionError: division by zero" :=
  ⟨rfl, rfl, rfl⟩

/-- C1 witness: the empty run at a concrete elapsed time. -/
theorem C1_empty_run_division_by_zero_witness :
    (main_run [] 5).dispatched = 0 ∧
    (main_run [] 5).wrote = false ∧
    (main_run [] 5).report =
      Except.error "ZeroDivisionError: division by zero" :=
  C1_empty_run_division_by_zero 5

/-! ## Resume logic (data_helpers.py build_dataframe / write_dataframe)

Rows are (isrc key, payload) pairs.  In build_dataframe, resume reads the
prior output and runs df.drop(df_output.index): pandas drop raises
KeyError when any prior key is absent from the input index, the except
swallows the error and df stays the full input.  In write_dataframe,
resume concatenates the freshly computed rows with the prior output.
main.py writes only when at least one track remained. -/

def keysOf (df : List (List Char × ℕ)) : List (List Char) := df.map Prod.fst

def df_drop (df dropped : List (List Char × ℕ)) :
    Except String (List (List Char × ℕ)) :=
  if (keysOf dropped).all (fun k => decide (k ∈ keysOf df)) then
    Except.ok (df.filter (fun r => decide (r.1 ∉ keysOf dropped)))
  else Except.error "KeyError"

def build_dataframe (input : List (List Char × ℕ)) (resume : Bool)
    (prior : Option (List (List Char × ℕ))) : List (List Char × ℕ) :=
  if resume then
    match prior with
    | none => input
    | some out =>
      match df_drop input out with
      | Except.ok df => df
      | Except.error _ => input
  else input

def write_dataframe (rows : List (List Char × ℕ)) (resume : Bool)
    (prior : Option (List (List Char × ℕ))) : List (List Char × ℕ) :=
  if resume then
    match prior with
    | none => rows
    | some out => rows ++ out
  else rows

def final_output (input : List (List Char × ℕ)) (resume : Bool)
    (prior : Option (List (List Char × ℕ))) : List (List Char × ℕ) :=
  if 0 < (build_dataframe input resume prior).length then
    write_dataframe (build_dataframe input resume prior) resume prior
  else (prior.getD [])

/-! ## Claim C10 (prior key missing from input: resume skips nothing) -/

/-- C10: with resume enabled, a readable prior output holding any key not
present in the input makes the pandas drop raise KeyError; the error is
caught, so the run proceeds with the unreduced input — every input track,
including those already in the prior output, is dispatched again. -/
theorem C10_unknown_prior_key_no_skip (input out : List (List Char × ℕ))
    (k : List Char) (hk : k ∈ keysOf out) (hk2 : k ∉ keysOf input) :
    df_drop input out = Except.error "KeyError" ∧
    build_dataframe input true (some out) = input := by
  have hcond : ((keysOf out).all (fun x => decide (x ∈ keysOf input))) = false := by
    rw [Bool.eq_false_iff]
    intro h
    exact hk2 (by simpa using List.all_eq_true.mp h k hk)
  have hdrop : df_drop input out = Except.error "KeyError" := by
    simp [df_drop, hcond]
  exact ⟨hdrop, by simp [build_dataframe, hdrop]⟩

/-- C10 witness: prior output holds ISRC999, absent from the input. -/
theorem C10_unknown_prior_key_no_skip_witness :
    "ISRC999".toList ∈ keysOf [("ISRC999".toList, 9)] ∧
    "ISRC999".toList ∉ keysOf [("ISRC001".toList, 1)] ∧
    (df_drop [("ISRC001".toList, 1)] [("ISRC999".toList, 9)]
        = Except.error "KeyError" ∧
      build_dataframe [("ISRC001".toList, 1)] true (some [("ISRC999".toList, 9)])
        = [("ISRC001".toList, 1)]) :=
  ⟨by decide, by decide,
    C10_unknown_prior_key_no_skip _ _ "ISRC999".toList (by decide) (by decide)⟩

/-! ## Claim C7 (resume skips already-done keys) -/

/-- C7 counterexample: resume with prior output holding ISRC001 and
ISRC999, input holding ISRC001 and ISRC002.  ISRC001 is already present in
the prior output, yet it is dispatched again: the drop of the prior index
raises KeyError on ISRC999 and is swallowed, leaving the full input. -/
theorem C7_resume_skip_counterexample :
    "ISRC001".toList ∈ keysOf (build_dataframe
      [("ISRC001".toList, 1), ("ISRC002".toList, 2)] true
      (some [("ISRC001".toList, 7), ("ISRC999".toList, 9)])) := by decide

/-- C7 (amended): with resume enabled and every prior-output key present in
the input, every input key already in the prior output is skipped (the
dispatched set is exactly the input rows with fresh keys), and the saved
output's keys are exactly the input keys together with the prior keys. -/
theorem C7_resume_skip_amended (input out : List (List Char × ℕ))
    (hsub : ∀ k ∈ keysOf out, k ∈ keysOf input) :
    build_dataframe input true (some out)
      = input.filter (fun r => decide (r.1 ∉ keysOf out)) ∧
    ∀ k : List Char, (k ∈ keysOf (final_output input true (some out)) ↔
      (k ∈ keysOf input ∨ k ∈ keysOf out)) := by
  have hcond : ((keysOf out).all (fun x => decide (x ∈ keysOf input))) = true := by
    simp only [List.all_eq_true, decide_eq_true_eq]
    exact hsub
  have hdrop : df_drop input out
      = Except.ok (input.filter (fun r => decide (r.1 ∉ keysOf out))) := by
    simp [df_drop, hcond]
  have hbuild : build_dataframe input true (some out)
      = input.filter (fun r => decide (r.1 ∉ keysOf out)) := by
    simp [build_dataframe, hdrop]
  refine ⟨hbuild, ?_⟩
  intro k
  unfold final_output
  rw [hbuild]
  by_cases hrem : 0 < (input.filter (fun r => decide (r.1 ∉ keysOf out))).length
  · rw [if_pos hrem]
    have hw : write_dataframe
        (input.filter (fun r => decide (r.1 ∉ keysOf out))) true (some out)
        = input.filter (fun r => decide (r.1 ∉ keysOf out)) ++ out := rfl
    rw [hw]
    simp only [keysOf, List.map_append, List.mem_append, List.mem_map,
      List.mem_filter, decide_eq_true_eq]
    constructor
    · rintro (⟨r, ⟨hr, _⟩, rfl⟩ | ⟨r, hr, rfl⟩)
      · exact Or.inl ⟨r, hr, rfl⟩
      · exact Or.inr ⟨r, hr, rfl⟩
    · rintro (⟨r, hr, rfl⟩ | ⟨r, hr, rfl⟩)
      · by_cases hin : r.1 ∈ keysOf out
        · obtain ⟨r2, hr2, heq⟩ := List.mem_map.mp hin
          exact Or.inr ⟨r2, hr2, heq⟩
        · exact Or.inl ⟨r, ⟨hr, by simpa [keysOf] using hin⟩, rfl⟩
      · exact Or.inr ⟨r, hr, rfl⟩
  · rw [if_neg hrem]
    have hempty : input.filter (fun r => decide (r.1 ∉ keysOf out)) = [] :=
      List.length_eq_zero.mp (by omega)
    have hall : ∀ r ∈ input, r.1 ∈ keysOf out := by
      intro r hr
      by_contra hnot
      have hmem : r ∈ input.filter (fun x => decide (x.1 ∉ keysOf out)) :=
        List.mem_filter.mpr ⟨hr, by simpa using hnot⟩
      rw [hempty] at hmem
      exact absurd hmem (List.not_mem_nil r)
    show k ∈ keysOf (Option.getD (some out) []) ↔ _
    constructor
    · intro hk
      exact Or.inr hk
    · rintro (hk | hk)
      · obtain ⟨r, hr, heq⟩ := List.mem_map.mp hk
        exact heq ▸ hall r hr
      · exact hk

/-- C7 witness: the spec scenario whose prior keys all lie in the input —
prior output holds ISRC001, input holds ISRC001 and ISRC002; only ISRC002
is dispatched and the final output carries both keys. -/
theorem C7_resume_skip_amended_witness :
    build_dataframe [("ISRC001".toList, 1), ("ISRC002".toList, 2)] true
        (some [("ISRC001".toList, 7)]) = [("ISRC002".toList, 2)] ∧
    "ISRC001".toList ∈ keysOf (final_output
        [("ISRC001".toList, 1), ("ISRC002".toList, 2)] true
        (some [("ISRC001".toList, 7)])) ∧
    "ISRC002".toList ∈ keysOf (final_output
        [("ISRC001".toList, 1), ("ISRC002".toList, 2)] true
        (some [("ISRC001".toList, 7)])) := by
  have h := C7_resume_skip_amended
    [("ISRC001".toList, 1), ("ISRC002".toList, 2)] [("ISRC001".toList, 7)]
    (by decide)
  refine ⟨h.1.trans (by decide), ?_, ?_⟩
  · exact (h.2 "ISRC001".toList).mpr (Or.inl (by decide))
  · exact (h.2 "ISRC002".toList).mpr (Or.inl (by decide))

end YTX

